import Mathlib

/-!
A verification development for the Itaú credit-card statement extraction
engine of the finance-app repository (src/finance_cli/itau.py and the
per-document driver loop in src/finance_cli/cli.py).

The Python source is shallowly embedded: every definition below mirrors a
specific Python function, translated line by line.  Modelling conventions:

* Python `str` is Lean `String`; character-level work happens on `List Char`
  (via `String.data`).  Python's `\s` whitespace class is modelled by its
  ASCII members (space, tab, newline, carriage return, vertical tab, form
  feed), which are the only whitespace characters the PDF extractor emits.
* Python `float` is modelled by `ℚ` with exact decimal arithmetic.  The
  amounts handled by the engine are short decimal literals, for which
  Python's binary floats are parsed and re-printed exactly (shortest
  round-trip repr of a short decimal literal is that literal), so the exact
  model agrees with the source on every reachable value.
* The CSV file underlying the idempotent merge writer is a `List String` of
  physical lines; `csv.writer`/`csv.reader` round-trip a comma-joined row
  through the file verbatim (fields are produced by splitting at commas, so
  no field contains a comma), hence reading is modelled as the identity on
  stored row strings.  A missing file and an empty file behave identically
  in the source (empty set of rows, headers get written), so both are the
  empty list.
* Functions written with Python `while` loops over an index are translated
  to structurally recursive functions with a fuel argument initialised to
  the length of the traversed list.  Every loop iteration consumes at least
  one list element and one unit of fuel, so the fuel is never exhausted;
  the out-of-fuel branches are unreachable.
-/

namespace FinanceApp

/-! ## Character and string primitives (Python semantics) -/

/-- Python's `\s` class restricted to ASCII. -/
def isWs (c : Char) : Bool :=
  c = ' ' || c = '\t' || c = '\n' || c = '\x0d' || c = '\x0b' || c = '\x0c'

/-- `re.sub(r"\s+", "", s)`: delete every whitespace character. -/
def stripWsL (cs : List Char) : List Char := cs.filter (fun c => !isWs c)

/-- `re.sub(r"\s+", "", s)` on strings. -/
def stripWs (s : String) : String := ⟨stripWsL s.data⟩

/-- Python `str.strip()` on a character list. -/
def pyStripL (cs : List Char) : List Char :=
  ((cs.dropWhile isWs).reverse.dropWhile isWs).reverse

/-- Python `str.strip()`. -/
def pyStrip (s : String) : String := ⟨pyStripL s.data⟩

/-- Split a character list at every occurrence of `sep` (all occurrences). -/
def splitCharAll (sep : Char) : List Char → List (List Char)
  | [] => [[]]
  | c :: cs =>
    if c = sep then [] :: splitCharAll sep cs
    else
      match splitCharAll sep cs with
      | [] => [[c]]
      | p :: ps => (c :: p) :: ps

/-- Python `str.splitlines()` for `\n`-separated text (the only line
terminator produced by the engine's block assembly): no trailing empty
line when the text ends in a newline, empty list for the empty string. -/
def pySplitlines (s : String) : List String :=
  if s.data = [] then []
  else
    let parts := splitCharAll '\n' s.data
    let parts := if s.data.getLast? = some '\n' then parts.dropLast else parts
    parts.map (fun p => ⟨p⟩)

/-- Python `str.split(sep, maxsplit)` core: split at the first `n`
occurrences of `sep`. -/
def splitMaxAux (sep : Char) : Nat → List Char → List Char → List (List Char)
  | _, [], acc => [acc.reverse]
  | 0, rest, acc => [acc.reverse ++ rest]
  | n + 1, c :: cs, acc =>
    if c = sep then acc.reverse :: splitMaxAux sep n cs []
    else splitMaxAux sep (n + 1) cs (c :: acc)

/-- Python `s.split(sep, maxsplit)` (for one-character separators). -/
def pySplitMax (s : String) (sep : Char) (maxsplit : Nat) : List String :=
  (splitMaxAux sep maxsplit s.data []).map (fun p => ⟨p⟩)

/-- Python `s.split(sep)` without maxsplit: every occurrence splits. -/
def pySplit (s : String) (sep : Char) : List String :=
  pySplitMax s sep s.data.length

/-- Python `s.split()` (no arguments): whitespace-run tokenisation,
no empty tokens.  `acc` is the current token, reversed. -/
def tokensGo : List Char → List Char → List (List Char)
  | [], acc => if acc = [] then [] else [acc.reverse]
  | c :: cs, acc =>
    if isWs c then
      if acc = [] then tokensGo cs [] else acc.reverse :: tokensGo cs []
    else tokensGo cs (c :: acc)

/-- Python `s.split()`. -/
def pyTokens (s : String) : List String :=
  (tokensGo s.data []).map (fun p => ⟨p⟩)

/-- Python `s.rsplit(" ", 1)`: split at the last space character, if any. -/
def pyRsplitSpace (s : String) : List String :=
  let r := s.data.reverse
  if r.contains ' ' then
    [⟨((r.dropWhile (fun c => c ≠ ' ')).tail).reverse⟩,
     ⟨(r.takeWhile (fun c => c ≠ ' ')).reverse⟩]
  else [s]

/-- `re.sub(r"\s{2,}", " ", s)`: replace each run of two or more
whitespace characters by a single space; single whitespace characters are
kept as they are.  Fuel = length of the list (each step consumes at least
one character). -/
def collapseWs2Fuel : Nat → List Char → List Char
  | _, [] => []
  | 0, rest => rest
  | n + 1, c :: cs =>
    if isWs c then
      match cs with
      | d :: _ =>
        if isWs d then ' ' :: collapseWs2Fuel n ((c :: cs).dropWhile isWs)
        else c :: collapseWs2Fuel n cs
      | [] => [c]
    else c :: collapseWs2Fuel n cs

/-- `re.sub(r"\s{2,}", " ", s)`. -/
def collapseWs2 (s : String) : String :=
  ⟨collapseWs2Fuel s.data.length s.data⟩

/-! ## Decimal number primitives (Python float semantics, exact model) -/

/-- Numeric value of a decimal digit character. -/
def digToNat (c : Char) : Nat := c.toNat - 48

/-- Value of a big-endian string of decimal digits (ignores leading zeros,
value of the empty list is 0). -/
def natVal : List Char → Nat
  | [] => 0
  | c :: cs => digToNat c * 10 ^ cs.length + natVal cs

/-- Big-endian decimal digit characters of `n` (non-empty, `"0"` for 0).
Non-tail-recursive on a fuel bound so that the kernel can evaluate it. -/
def natToCharsF : Nat → Nat → List Char
  | 0, _ => []
  | f + 1, n =>
    if n < 10 then [Char.ofNat (48 + n % 10)]
    else natToCharsF f (n / 10) ++ [Char.ofNat (48 + n % 10)]

/-- Big-endian decimal digit characters of `n` (Python `str(n)`). -/
def natToChars (n : Nat) : List Char := natToCharsF (n + 1) n

/-- The sign/integer-digits/fraction-digits decomposition of a decimal
float literal; the exact-value model of a parsed Python float. -/
structure FloatParts where
  neg : Bool
  intDigits : List Char
  fracDigits : List Char
  deriving Repr, DecidableEq

/-- Exact value of a decomposed decimal literal. -/
def partsVal (p : FloatParts) : ℚ :=
  (if p.neg then -1 else 1) *
    ((natVal p.intDigits : ℚ) + (natVal p.fracDigits : ℚ) / 10 ^ p.fracDigits.length)

/-- Optional leading sign of a float literal. -/
def parseSign : List Char → Bool × List Char
  | [] => (false, [])
  | c :: r =>
    if c = '-' then (true, r)
    else if c = '+' then (false, r)
    else (false, c :: r)

/-- Python `float(s)` for plain decimal literals: optional surrounding
whitespace, optional sign, digits, optional point and digits, at least one
digit overall.  (The exponent/inf/nan forms accepted by `float` never
reach the engine's call sites and are not modelled.) -/
def parseFloatPartsL (cs0 : List Char) : Option FloatParts :=
  let cs := pyStripL cs0
  let sn := parseSign cs
  let ip := sn.2.takeWhile Char.isDigit
  let rest := sn.2.dropWhile Char.isDigit
  if rest = [] then (if ip = [] then none else some ⟨sn.1, ip, []⟩)
  else if rest.head? = some '.' then
    let r := rest.tail
    let fp := r.takeWhile Char.isDigit
    if r.dropWhile Char.isDigit = [] && !(ip = [] && fp = []) then
      some ⟨sn.1, ip, fp⟩
    else none
  else none

/-- Python `float(s)` on strings. -/
def parseFloatParts (s : String) : Option FloatParts := parseFloatPartsL s.data

/-- Python `float(s)` as an exact rational. -/
def parseFloat (s : String) : Option ℚ := (parseFloatParts s).map partsVal

/-- Drop trailing `'0'` characters. -/
def trimTrailZeros (cs : List Char) : List Char :=
  (cs.reverse.dropWhile (fun c => c = '0')).reverse

/-- Python `str(float)` for the exact decimal value described by `p`:
sign, canonical integer digits, a point, fraction digits with trailing
zeros removed but at least one digit (`str(-10.0) = "-10.0"`,
`str(-61.75) = "-61.75"`, `str(-0.0) = "-0.0"`). -/
def pyFloatStr (p : FloatParts) : String :=
  let ip := natToChars (natVal p.intDigits)
  let fp := trimTrailZeros p.fracDigits
  let fp := if fp = [] then ['0'] else fp
  ⟨(if p.neg then ['-'] else []) ++ ip ++ '.' :: fp⟩

/-! ## Identity & Merge Writer
(`load_existing_rows`, `write_csv_lines_idempotent`, itau.py:988-1025).

The table is the list of physical CSV lines.  `csv.reader` yields each
line's fields, `",".join(...)` restores the row string, and rows equal to
the header field list are excluded, so loading is a filter on line
strings.  `write_csv_lines_idempotent` opens in append mode (creating the
file), writes the header when the file was empty or missing, and appends
each row whose string is not in the loaded set, adding it to the set. -/

/-- `load_existing_rows` (itau.py:988-1000): the set of stored row strings,
excluding rows equal to the header row. -/
def load_existing_rows (file : List String) (header : String) : List String :=
  file.filter (fun row => row ≠ header)

/-- Outcome of one `write_csv_lines_idempotent` call: the resulting file
lines and the number of newly appended rows (its return value). -/
structure MergeOutcome where
  file : List String
  added : Nat
  deriving Repr, DecidableEq

/-- The append loop of `write_csv_lines_idempotent` (itau.py:1019-1024):
skip rows already in `existing`, append the rest, tracking the count. -/
def mergeGo : List String → List String → List String → Nat → MergeOutcome
  | [], file, _, added => ⟨file, added⟩
  | r :: rs, file, existing, added =>
    if r ∈ existing then mergeGo rs file existing added
    else mergeGo rs (file ++ [r]) (r :: existing) (added + 1)

/-- `write_csv_lines_idempotent` (itau.py:1003-1025). -/
def write_csv_lines_idempotent (rows : List String) (file : List String)
    (includeHeaders : Bool) (header : String) : MergeOutcome :=
  let existing := load_existing_rows file header
  let file := if includeHeaders && file.isEmpty then file ++ [header] else file
  mergeGo rows file existing 0

/-! ### Merge writer lemmas -/

theorem mergeGo_cons_mem {r : String} {ex : List String} (rs file : List String)
    (n : Nat) (h : r ∈ ex) :
    mergeGo (r :: rs) file ex n = mergeGo rs file ex n := by
  simp [mergeGo, h]

theorem mergeGo_cons_notmem {r : String} {ex : List String}
    (rs file : List String) (n : Nat) (h : r ∉ ex) :
    mergeGo (r :: rs) file ex n
      = mergeGo rs (file ++ [r]) (r :: ex) (n + 1) := by
  simp [mergeGo, h]

theorem mergeGo_mem_file {x : String} :
    ∀ (rs file ex : List String) (n : Nat),
      x ∈ file → x ∈ (mergeGo rs file ex n).file := by
  intro rs
  induction rs with
  | nil => intro file ex n h; simpa [mergeGo] using h
  | cons r rs ih =>
    intro file ex n h
    by_cases hr : r ∈ ex
    · rw [mergeGo_cons_mem rs file n hr]
      exact ih file ex n h
    · rw [mergeGo_cons_notmem rs file n hr]
      exact ih (file ++ [r]) (r :: ex) (n + 1) (List.mem_append_left _ h)

theorem mergeGo_mem_of_mem_rows {x : String} :
    ∀ (rs file ex : List String) (n : Nat),
      (∀ y ∈ ex, y ∈ file) → x ∈ rs → x ∈ (mergeGo rs file ex n).file := by
  intro rs
  induction rs with
  | nil => intro _ _ _ _ h; cases h
  | cons r rs ih =>
    intro file ex n hsub hx
    by_cases hr : r ∈ ex
    · rw [mergeGo_cons_mem rs file n hr]
      rcases List.mem_cons.mp hx with hxe | hx
      · exact mergeGo_mem_file rs file ex n (hxe ▸ hsub _ hr)
      · exact ih file ex n hsub hx
    · rw [mergeGo_cons_notmem rs file n hr]
      have hsub' : ∀ y ∈ r :: ex, y ∈ file ++ [r] := by
        intro y hy
        rcases List.mem_cons.mp hy with hye | hy
        · exact hye ▸ List.mem_append_right _ (List.mem_singleton.mpr rfl)
        · exact List.mem_append_left _ (hsub _ hy)
      rcases List.mem_cons.mp hx with hxe | hx
      · exact mergeGo_mem_file rs (file ++ [r]) (r :: ex) (n + 1)
          (hxe ▸ List.mem_append_right _ (List.mem_singleton.mpr rfl))
      · exact ih (file ++ [r]) (r :: ex) (n + 1) hsub' hx

theorem mergeGo_skip_all :
    ∀ (rs file ex : List String) (n : Nat),
      (∀ r ∈ rs, r ∈ ex) → mergeGo rs file ex n = ⟨file, n⟩ := by
  intro rs
  induction rs with
  | nil => intro file ex n _; rfl
  | cons r rs ih =>
    intro file ex n h
    have hr : r ∈ ex := h r (List.mem_cons_self r rs)
    rw [mergeGo_cons_mem rs file n hr]
    exact ih file ex n (fun x hx => h x (List.mem_cons_of_mem _ hx))

theorem mergeGo_file_length :
    ∀ (rs file ex : List String) (n : Nat),
      file.length ≤ (mergeGo rs file ex n).file.length := by
  intro rs
  induction rs with
  | nil => intro file ex n; exact Nat.le_refl _
  | cons r rs ih =>
    intro file ex n
    by_cases hr : r ∈ ex
    · rw [mergeGo_cons_mem rs file n hr]
      exact ih file ex n
    · rw [mergeGo_cons_notmem rs file n hr]
      calc file.length ≤ (file ++ [r]).length := by simp
        _ ≤ _ := ih (file ++ [r]) (r :: ex) (n + 1)

theorem mergeGo_count_notmem {x : String} :
    ∀ (rs file ex : List String) (n : Nat),
      x ∉ rs → ((mergeGo rs file ex n).file.count x = file.count x) := by
  intro rs
  induction rs with
  | nil => intro file ex n _; rfl
  | cons r rs ih =>
    intro file ex n hx
    have hxr : x ≠ r := fun h => hx (h ▸ List.mem_cons_self r rs)
    have hxs : x ∉ rs := fun h => hx (List.mem_cons_of_mem _ h)
    by_cases hr : r ∈ ex
    · rw [mergeGo_cons_mem rs file n hr]
      exact ih file ex n hxs
    · rw [mergeGo_cons_notmem rs file n hr]
      rw [ih (file ++ [r]) (r :: ex) (n + 1) hxs]
      simp [List.count_append, List.count_singleton', hxr]

theorem mergeGo_count_le {x : String} :
    ∀ (rs file ex : List String) (n : Nat),
      (x ∈ ex → (mergeGo rs file ex n).file.count x = file.count x) ∧
        (mergeGo rs file ex n).file.count x ≤ file.count x + 1 := by
  intro rs
  induction rs with
  | nil => intro file ex n; exact ⟨fun _ => rfl, Nat.le_succ _⟩
  | cons r rs ih =>
    intro file ex n
    by_cases hr : r ∈ ex
    · rw [mergeGo_cons_mem rs file n hr]
      exact ih file ex n
    · rw [mergeGo_cons_notmem rs file n hr]
      rcases ih (file ++ [r]) (r :: ex) (n + 1) with ⟨h1, h2⟩
      by_cases hxr : x = r
      · subst hxr
        have hx' : x ∈ x :: ex := List.mem_cons_self _ _
        constructor
        · intro hx; exact absurd hx hr
        · rw [h1 hx']
          simp [List.count_append, List.count_singleton']
      · have hcnt : (file ++ [r]).count x = file.count x := by
          simp [List.count_append, List.count_singleton', hxr]
        constructor
        · intro hx
          rw [h1 (List.mem_cons_of_mem _ hx), hcnt]
        · rw [hcnt] at h2; exact h2

theorem mergeGo_nodup {hd : String} :
    ∀ (rs file ex : List String) (n : Nat),
      hd ∉ rs → file.Nodup → (∀ y ∈ file, y ≠ hd → y ∈ ex) →
      (mergeGo rs file ex n).file.Nodup := by
  intro rs
  induction rs with
  | nil => intro file ex n _ hnd _; exact hnd
  | cons r rs ih =>
    intro file ex n hhd hnd hinv
    have hhd' : hd ∉ rs := fun h => hhd (List.mem_cons_of_mem _ h)
    have hrhd : r ≠ hd := fun h => hhd (h ▸ List.mem_cons_self r rs)
    by_cases hr : r ∈ ex
    · rw [mergeGo_cons_mem rs file n hr]
      exact ih file ex n hhd' hnd hinv
    · rw [mergeGo_cons_notmem rs file n hr]
      have hrfile : r ∉ file := fun h => hr (hinv r h hrhd)
      have hnd' : (file ++ [r]).Nodup := by
        simp [List.nodup_append, hnd, hrfile]
      have hinv' : ∀ y ∈ file ++ [r], y ≠ hd → y ∈ r :: ex := by
        intro y hy hyhd
        rcases List.mem_append.mp hy with hy | hy
        · exact List.mem_cons_of_mem _ (hinv y hy hyhd)
        · exact (List.mem_singleton.mp hy) ▸ List.mem_cons_self _ _
      exact ih (file ++ [r]) (r :: ex) (n + 1) hhd' hnd' hinv'

/-- Rows already merged are in the resulting table. -/
theorem merge_mem_of_mem_rows (rows file : List String) (ih : Bool)
    (hd : String) {x : String} (hx : x ∈ rows) :
    x ∈ (write_csv_lines_idempotent rows file ih hd).file := by
  unfold write_csv_lines_idempotent
  apply mergeGo_mem_of_mem_rows
  · intro y hy
    have hyf : y ∈ file := List.mem_of_mem_filter hy
    split
    · exact List.mem_append_left _ hyf
    · exact hyf
  · exact hx

/-- C1 counterexample helper: the header row string for the base schema. -/
def csvHeaderRow : String := "id,transaction_date,payment_date,description,amount"

/-- **C1** (amended): merging the same row batch twice is idempotent —
provided no row in the batch equals the CSV header line (which
`load_existing_rows` excludes from the existing-row set): the second call
leaves the table unchanged and reports zero newly inserted rows. -/
theorem merge_idempotent (T S : List String) (ihdr : Bool) (hd : String)
    (h : hd ∉ S) :
    write_csv_lines_idempotent S
        (write_csv_lines_idempotent S T ihdr hd).file ihdr hd
      = ⟨(write_csv_lines_idempotent S T ihdr hd).file, 0⟩ := by
  set F := (write_csv_lines_idempotent S T ihdr hd).file with hF
  have hmem : ∀ r ∈ S, r ∈ F := fun r hr =>
    merge_mem_of_mem_rows S T ihdr hd hr
  have hne : ihdr = true → F ≠ [] := by
    intro hih
    have h1 : 1 ≤ ((if ihdr && T.isEmpty then T ++ [hd] else T)).length
        → 1 ≤ F.length := by
      intro hlen
      exact le_trans hlen (by
        simpa [write_csv_lines_idempotent, hF] using
          mergeGo_file_length S (if ihdr && T.isEmpty then T ++ [hd] else T)
            (load_existing_rows T hd) 0)
    intro hnil
    have : 1 ≤ F.length := by
      apply h1
      by_cases hT : T.isEmpty
      · simp [hih, hT]
      · rcases T with _ | ⟨a, T⟩
        · simp at hT
        · simp
    rw [hnil] at this; simp at this
  unfold write_csv_lines_idempotent
  have hcond : (if ihdr && F.isEmpty then F ++ [hd] else F) = F := by
    by_cases hih : ihdr = true
    · have := hne hih
      have : F.isEmpty = false := by
        rcases F with _ | _
        · simp at this
        · rfl
      simp [this]
    · simp at hih
      simp [hih]
  rw [hcond]
  apply mergeGo_skip_all
  intro r hr
  unfold load_existing_rows
  have hrne : r ≠ hd := fun hrh => h (hrh ▸ hr)
  exact List.mem_filter.mpr ⟨hmem r hr, by simpa using hrne⟩

/-- **C1 witness**: a concrete double merge of one statement row into an
initially empty table, second call a no-op reporting 0. -/
theorem merge_idempotent_witness :
    csvHeaderRow ∉ (["0,01/02/24,,Coffee,-10.0"] : List String) ∧
      write_csv_lines_idempotent ["0,01/02/24,,Coffee,-10.0"]
          (write_csv_lines_idempotent ["0,01/02/24,,Coffee,-10.0"] [] true
            csvHeaderRow).file true csvHeaderRow
        = ⟨(write_csv_lines_idempotent ["0,01/02/24,,Coffee,-10.0"] [] true
            csvHeaderRow).file, 0⟩ :=
  ⟨by decide, merge_idempotent [] ["0,01/02/24,,Coffee,-10.0"] true
    csvHeaderRow (by decide)⟩

/-- **C1 counterexample**: a batch containing a row equal to the header
line is re-inserted on every call, because `load_existing_rows` filters
header-shaped rows out of the existing set; the second call reports 1 new
row, not 0 as the claim states. -/
theorem merge_idempotent_cex :
    (write_csv_lines_idempotent [csvHeaderRow]
        (write_csv_lines_idempotent [csvHeaderRow] [] false
          csvHeaderRow).file false csvHeaderRow).added = 1 := by decide

/-- **C10** (amended): within one call the idempotent writer deduplicates
its input batch — every row string ends up in the table at most once more
than it already occurred — and, provided no row of the batch equals the
header line, a duplicate-free table stays duplicate-free. -/
theorem merge_batch_dedup (file rows : List String) (ihdr : Bool)
    (hd : String) (h : hd ∉ rows) :
    (∀ x : String,
        (write_csv_lines_idempotent rows file ihdr hd).file.count x
          ≤ file.count x + 1) ∧
      (file.Nodup →
        (write_csv_lines_idempotent rows file ihdr hd).file.Nodup) := by
  unfold write_csv_lines_idempotent
  set file1 := if ihdr && file.isEmpty then file ++ [hd] else file with hfile1
  constructor
  · intro x
    by_cases hx : x ∈ rows
    · have hxhd : x ≠ hd := fun hxe => h (hxe ▸ hx)
      have hcnt1 : file1.count x = file.count x := by
        rw [hfile1]
        split
        · next hcond =>
          have : file.isEmpty = true := by
            rcases Bool.and_eq_true_iff.mp hcond with ⟨_, h2⟩
            exact h2
          rcases file with _ | _
          · simp [List.count_append, List.count_singleton', hxhd]
          · simp at this
        · rfl
      calc (mergeGo rows file1 (load_existing_rows file hd) 0).file.count x
          ≤ file1.count x + 1 :=
            (mergeGo_count_le rows file1 (load_existing_rows file hd) 0).2
        _ = file.count x + 1 := by rw [hcnt1]
    · rw [mergeGo_count_notmem rows file1 (load_existing_rows file hd) 0 hx]
      rw [hfile1]
      split
      · next hcond =>
        have : file.isEmpty = true := by
          rcases Bool.and_eq_true_iff.mp hcond with ⟨_, h2⟩
          exact h2
        rcases file with _ | _
        · by_cases hxhd : x = hd
          · subst hxhd; simp [List.count_append, List.count_singleton']
          · simp [List.count_append, List.count_singleton', hxhd]
        · simp at this
      · exact Nat.le_succ _
  · intro hnd
    apply mergeGo_nodup rows file1 (load_existing_rows file hd) 0 h
    · rw [hfile1]
      split
      · next hcond =>
        have : file.isEmpty = true := by
          rcases Bool.and_eq_true_iff.mp hcond with ⟨_, h2⟩
          exact h2
        rcases file with _ | _
        · simp
        · simp at this
      · exact hnd
    · intro y hy hyhd
      unfold load_existing_rows
      rw [hfile1] at hy
      have hyf : y ∈ file := by
        by_cases hcond : (ihdr && file.isEmpty) = true
        · rw [if_pos hcond] at hy
          rcases List.mem_append.mp hy with hy | hy
          · exact hy
          · exact absurd (List.mem_singleton.mp hy) hyhd
        · rwa [if_neg hcond] at hy
      exact List.mem_filter.mpr ⟨hyf, by simpa using hyhd⟩

/-- **C10 witness**: concrete instance — a batch with the same row twice
against a table already holding it: the row is not duplicated and the
table stays duplicate-free. -/
theorem merge_batch_dedup_witness :
    csvHeaderRow ∉ (["0,01/02/24,,Coffee,-10.0",
        "0,01/02/24,,Coffee,-10.0"] : List String) ∧
      (∀ x : String,
        (write_csv_lines_idempotent
            ["0,01/02/24,,Coffee,-10.0", "0,01/02/24,,Coffee,-10.0"]
            ["0,01/02/24,,Coffee,-10.0"] true csvHeaderRow).file.count x
          ≤ (["0,01/02/24,,Coffee,-10.0"] : List String).count x + 1) ∧
      ((["0,01/02/24,,Coffee,-10.0"] : List String).Nodup →
        (write_csv_lines_idempotent
            ["0,01/02/24,,Coffee,-10.0", "0,01/02/24,,Coffee,-10.0"]
            ["0,01/02/24,,Coffee,-10.0"] true csvHeaderRow).file.Nodup) :=
  ⟨by decide,
    merge_batch_dedup ["0,01/02/24,,Coffee,-10.0"]
      ["0,01/02/24,,Coffee,-10.0", "0,01/02/24,,Coffee,-10.0"] true
      csvHeaderRow (by decide)⟩

/-- **C10 counterexample**: a table whose only line equals the header row
gains a duplicate, because `load_existing_rows` never reports
header-shaped rows as existing; so "a table containing no duplicate row
strings before the call contains none after it" fails as stated. -/
theorem merge_batch_dedup_cex :
    (write_csv_lines_idempotent [csvHeaderRow] [csvHeaderRow] false
        csvHeaderRow).file = [csvHeaderRow, csvHeaderRow] ∧
      ¬ ([csvHeaderRow, csvHeaderRow] : List String).Nodup ∧
      ([csvHeaderRow] : List String).Nodup := by
  refine ⟨by decide, ?_, by decide⟩
  intro h
  simp [csvHeaderRow] at h

/-! ### List and digit-string lemmas -/

theorem dropWhile_eq_self_of {p : Char → Bool} :
    ∀ cs : List Char, (∀ x ∈ cs, p x = false) → cs.dropWhile p = cs := by
  intro cs h
  cases cs with
  | nil => rfl
  | cons c cs => simp [List.dropWhile, h c (List.mem_cons_self c cs)]

theorem pyStripL_eq_self {cs : List Char}
    (h : ∀ x ∈ cs, isWs x = false) : pyStripL cs = cs := by
  unfold pyStripL
  rw [dropWhile_eq_self_of cs h]
  rw [dropWhile_eq_self_of cs.reverse (fun x hx => h x (List.mem_reverse.mp hx))]
  exact List.reverse_reverse cs

theorem takeWhile_all {p : Char → Bool} :
    ∀ cs : List Char, (∀ x ∈ cs, p x = true) → cs.takeWhile p = cs := by
  intro cs h
  induction cs with
  | nil => rfl
  | cons c cs ih =>
    simp only [List.takeWhile, h c (List.mem_cons_self c cs)]
    rw [ih (fun x hx => h x (List.mem_cons_of_mem _ hx))]

theorem dropWhile_all {p : Char → Bool} :
    ∀ cs : List Char, (∀ x ∈ cs, p x = true) → cs.dropWhile p = [] := by
  intro cs h
  induction cs with
  | nil => rfl
  | cons c cs ih =>
    simp only [List.dropWhile, h c (List.mem_cons_self c cs)]
    exact ih (fun x hx => h x (List.mem_cons_of_mem _ hx))

theorem takeWhile_all_append {p : Char → Bool} :
    ∀ (xs : List Char) (y : Char) (ys : List Char),
      (∀ x ∈ xs, p x = true) → p y = false →
      (xs ++ y :: ys).takeWhile p = xs := by
  intro xs y ys hxs hy
  induction xs with
  | nil => simp [List.takeWhile, hy]
  | cons x xs ih =>
    simp only [List.cons_append, List.takeWhile,
      hxs x (List.mem_cons_self x xs)]
    exact congrArg (fun t => x :: t)
      (ih (fun z hz => hxs z (List.mem_cons_of_mem _ hz)))

theorem dropWhile_all_append {p : Char → Bool} :
    ∀ (xs : List Char) (y : Char) (ys : List Char),
      (∀ x ∈ xs, p x = true) → p y = false →
      (xs ++ y :: ys).dropWhile p = y :: ys := by
  intro xs y ys hxs hy
  induction xs with
  | nil => simp [List.dropWhile, hy]
  | cons x xs ih =>
    simp only [List.cons_append, List.dropWhile,
      hxs x (List.mem_cons_self x xs)]
    exact ih (fun z hz => hxs z (List.mem_cons_of_mem _ hz))

theorem isDigit_not_ws {c : Char} (h : c.isDigit = true) : isWs c = false := by
  simp only [isWs, Bool.or_eq_false_iff, decide_eq_false_iff_not]
  refine ⟨⟨⟨⟨⟨?_, ?_⟩, ?_⟩, ?_⟩, ?_⟩, ?_⟩ <;>
    (intro he; rw [he] at h; exact absurd h (by decide))

theorem isDigit_ne_dash {c : Char} (h : c.isDigit = true) : c ≠ '-' := by
  intro he; rw [he] at h; exact absurd h (by decide)

theorem isDigit_ne_plus {c : Char} (h : c.isDigit = true) : c ≠ '+' := by
  intro he; rw [he] at h; exact absurd h (by decide)

theorem isDigit_ne_dot {c : Char} (h : c.isDigit = true) : c ≠ '.' := by
  intro he; rw [he] at h; exact absurd h (by decide)

theorem isDigit_ne_comma {c : Char} (h : c.isDigit = true) : c ≠ ',' := by
  intro he; rw [he] at h; exact absurd h (by decide)

theorem natVal_append (xs ys : List Char) :
    natVal (xs ++ ys) = natVal xs * 10 ^ ys.length + natVal ys := by
  induction xs with
  | nil => simp [natVal]
  | cons x xs ih =>
    show digToNat x * 10 ^ (xs ++ ys).length + natVal (xs ++ ys) = _
    rw [ih, List.length_append, pow_add]
    show _ = (digToNat x * 10 ^ xs.length + natVal xs) * 10 ^ ys.length
      + natVal ys
    ring

theorem natVal_replicate_zero : ∀ k, natVal (List.replicate k '0') = 0 := by
  intro k
  induction k with
  | zero => rfl
  | succ k ih =>
    rw [List.replicate_succ]
    simp only [natVal, ih]
    have h0 : digToNat '0' = 0 := by decide
    simp [h0]


theorem ofNat_digit_isDigit {m : Nat} (h : m < 10) :
    (Char.ofNat (48 + m)).isDigit = true := by
  interval_cases m <;> decide

theorem digToNat_ofNat {m : Nat} (h : m < 10) :
    digToNat (Char.ofNat (48 + m)) = m := by
  interval_cases m <;> decide

theorem natVal_singleton (c : Char) : natVal [c] = digToNat c := by
  simp [natVal]

theorem natToCharsF_succ (f n : Nat) :
    natToCharsF (f + 1) n
      = if n < 10 then [Char.ofNat (48 + n % 10)]
        else natToCharsF f (n / 10) ++ [Char.ofNat (48 + n % 10)] := rfl

theorem natToCharsF_spec :
    ∀ (f n : Nat), n < 10 ^ (f + 1) →
      natVal (natToCharsF (f + 1) n) = n ∧ natToCharsF (f + 1) n ≠ [] ∧
        ∀ x ∈ natToCharsF (f + 1) n, x.isDigit = true := by
  intro f
  induction f with
  | zero =>
    intro n hn
    have h10 : n < 10 := by simpa using hn
    have hmod : n % 10 = n := Nat.mod_eq_of_lt h10
    rw [natToCharsF_succ, if_pos h10]
    refine ⟨?_, by simp, ?_⟩
    · rw [natVal_singleton, hmod, digToNat_ofNat h10]
    · intro x hx
      rcases List.mem_singleton.mp hx with rfl
      rw [hmod]
      exact ofNat_digit_isDigit h10
  | succ f ih =>
    intro n hn
    by_cases h10 : n < 10
    · have hmod : n % 10 = n := Nat.mod_eq_of_lt h10
      rw [natToCharsF_succ, if_pos h10]
      refine ⟨?_, by simp, ?_⟩
      · rw [natVal_singleton, hmod, digToNat_ofNat h10]
      · intro x hx
        rcases List.mem_singleton.mp hx with rfl
        rw [hmod]
        exact ofNat_digit_isDigit h10
    · have hdiv : n / 10 < 10 ^ (f + 1) := by
        rw [Nat.div_lt_iff_lt_mul (by norm_num)]
        calc n < 10 ^ (f + 1 + 1) := hn
          _ = 10 ^ (f + 1) * 10 := by ring
      rcases ih (n / 10) hdiv with ⟨hval, hne, hdig⟩
      rw [natToCharsF_succ, if_neg h10]
      have hm : n % 10 < 10 := Nat.mod_lt _ (by norm_num)
      refine ⟨?_, by simp, ?_⟩
      · rw [natVal_append, hval, natVal_singleton, digToNat_ofNat hm]
        simp only [List.length_singleton, pow_one]
        omega
      · intro x hx
        rcases List.mem_append.mp hx with hx | hx
        · exact hdig x hx
        · rcases List.mem_singleton.mp hx with rfl
          exact ofNat_digit_isDigit hm

theorem natToChars_spec (n : Nat) :
    natVal (natToChars n) = n ∧ natToChars n ≠ [] ∧
      ∀ x ∈ natToChars n, x.isDigit = true := by
  apply natToCharsF_spec
  calc n < 10 ^ n := Nat.lt_pow_self (by norm_num) n
    _ ≤ 10 ^ (n + 1) := Nat.pow_le_pow_right (by norm_num) (Nat.le_succ n)

theorem trimTrailZeros_decomp (b : List Char) :
    ∃ k, b = trimTrailZeros b ++ List.replicate k '0' := by
  refine ⟨(b.reverse.takeWhile (fun c => c = '0')).length, ?_⟩
  unfold trimTrailZeros
  have hsplit : b.reverse.takeWhile (fun c => c = '0')
      ++ b.reverse.dropWhile (fun c => c = '0') = b.reverse :=
    List.takeWhile_append_dropWhile (fun c => c = '0') b.reverse
  have hrep : b.reverse.takeWhile (fun c => c = '0')
      = List.replicate (b.reverse.takeWhile (fun c => c = '0')).length '0' := by
    apply List.eq_replicate_of_mem
    intro x hx
    have := List.mem_takeWhile_imp hx
    simpa using this
  calc b = b.reverse.reverse := (List.reverse_reverse b).symm
    _ = (b.reverse.takeWhile (fun c => c = '0')
          ++ b.reverse.dropWhile (fun c => c = '0')).reverse := by rw [hsplit]
    _ = (b.reverse.dropWhile (fun c => c = '0')).reverse
          ++ (b.reverse.takeWhile (fun c => c = '0')).reverse := by
            rw [List.reverse_append]
    _ = _ := by rw [hrep]; simp

theorem natVal_frac_trim (b : List Char) :
    (natVal (trimTrailZeros b) : ℚ) / 10 ^ (trimTrailZeros b).length
      = (natVal b : ℚ) / 10 ^ b.length := by
  rcases trimTrailZeros_decomp b with ⟨k, hb⟩
  conv_rhs => rw [hb]
  rw [natVal_append, natVal_replicate_zero, List.length_append,
    List.length_replicate]
  push_cast
  rw [pow_add]
  have h10 : (10 : ℚ) ^ (trimTrailZeros b).length ≠ 0 := by positivity
  have h10k : (10 : ℚ) ^ k ≠ 0 := by positivity
  field_simp
  ring

/-! ### Float literal parsing lemmas -/

theorem parseSign_digit {c : Char} (h : c.isDigit = true) (r : List Char) :
    parseSign (c :: r) = (false, c :: r) := by
  simp [parseSign, isDigit_ne_dash h, isDigit_ne_plus h]

theorem parseFloatPartsL_core (neg : Bool) (a b : List Char) (ha : a ≠ [])
    (hda : ∀ x ∈ a, x.isDigit = true) (hdb : ∀ x ∈ b, x.isDigit = true) :
    parseFloatPartsL ((if neg then ['-'] else []) ++ a ++ '.' :: b)
      = some ⟨neg, a, b⟩ := by
  rcases a with _ | ⟨a0, a'⟩
  · exact absurd rfl ha
  have hnw : ∀ x ∈ (if neg then ['-'] else []) ++ (a0 :: a') ++ '.' :: b,
      isWs x = false := by
    intro x hx
    rcases List.mem_append.mp hx with hx | hx
    · rcases List.mem_append.mp hx with hx | hx
      · rcases neg with _ | _
        · simp at hx
        · rcases List.mem_singleton.mp hx with rfl; decide
      · exact isDigit_not_ws (hda x hx)
    · rcases List.mem_cons.mp hx with rfl | hx
      · decide
      · exact isDigit_not_ws (hdb x hx)
  have hsign : parseSign ((if neg then ['-'] else []) ++ (a0 :: a') ++ '.' :: b)
      = (neg, (a0 :: a') ++ '.' :: b) := by
    rcases neg with _ | _
    · simp only [Bool.false_eq_true, if_false, List.nil_append]
      exact parseSign_digit (hda a0 (List.mem_cons_self a0 a')) _
    · simp [parseSign]
  have ht : List.takeWhile Char.isDigit ((a0 :: a') ++ '.' :: b) = a0 :: a' :=
    takeWhile_all_append (a0 :: a') '.' b hda (by decide)
  have hp : List.dropWhile Char.isDigit ((a0 :: a') ++ '.' :: b) = '.' :: b :=
    dropWhile_all_append (a0 :: a') '.' b hda (by decide)
  simp only [parseFloatPartsL]
  rw [pyStripL_eq_self hnw, hsign]
  simp only [ht, hp, List.head?_cons, List.tail_cons,
    takeWhile_all b hdb, dropWhile_all b hdb]
  simp

theorem parseFloat_core (neg : Bool) (a b : List Char) (ha : a ≠ [])
    (hda : ∀ x ∈ a, x.isDigit = true) (hdb : ∀ x ∈ b, x.isDigit = true) :
    parseFloat ⟨(if neg then ['-'] else []) ++ a ++ '.' :: b⟩
      = some ((if neg then -1 else 1) *
          ((natVal a : ℚ) + (natVal b : ℚ) / 10 ^ b.length)) := by
  show (parseFloatPartsL _).map partsVal = _
  rw [parseFloatPartsL_core neg a b ha hda hdb]
  rfl

/-! ## Normalizer: `parse_brl_amount` (itau.py:642-645, itau_pdf/utils.py:15-18)

`value.strip().replace(".", "").replace(",", ".")` fed to `float`:
every `.` is deleted and every `,` becomes the decimal point, whatever
their relative order in the input. -/

/-- `s.replace(".", "")`. -/
def removeDots (cs : List Char) : List Char := cs.filter (fun c => c ≠ '.')

/-- `s.replace(",", ".")`. -/
def commaToDot (cs : List Char) : List Char :=
  cs.map (fun c => if c = ',' then '.' else c)

/-- `parse_brl_amount` (itau.py:642-645 and itau_pdf/utils.py:15-18). -/
def parse_brl_amount (value : String) : Option ℚ :=
  parseFloat ⟨commaToDot (removeDots (pyStripL value.data))⟩

theorem filter_eq_self_of_digits {cs : List Char}
    (h : ∀ x ∈ cs, x.isDigit = true) : removeDots cs = cs := by
  unfold removeDots
  apply List.filter_eq_self.mpr
  intro x hx
  simpa using isDigit_ne_dot (h x hx)

theorem commaToDot_digits {cs : List Char}
    (h : ∀ x ∈ cs, x.isDigit = true) : commaToDot cs = cs := by
  induction cs with
  | nil => rfl
  | cons c cs ih =>
    show (if c = ',' then '.' else c) :: commaToDot cs = c :: cs
    rw [if_neg (isDigit_ne_comma (h c (List.mem_cons_self c cs)))]
    rw [ih (fun x hx => h x (List.mem_cons_of_mem _ hx))]

/-- **C3 counterexample**: `parse_brl_amount` does not implement the
"later separator is the decimal separator" rule: `"1,234.56"` parses to
`1.23456`, not `1234.56` (all dots are removed, the comma becomes the
decimal point regardless of position). -/
theorem parse_brl_amount_cex :
    parse_brl_amount "1,234.56" = some ((1.23456 : ℚ)) ∧
      (1.23456 : ℚ) ≠ (1234.56 : ℚ) := by
  constructor
  · have hp : parseFloatParts ⟨commaToDot (removeDots
        (pyStripL ("1,234.56").data))⟩
        = some ⟨false, ['1'], ['2', '3', '4', '5', '6']⟩ := by decide
    show (parseFloatParts ⟨commaToDot (removeDots
        (pyStripL ("1,234.56").data))⟩).map partsVal = _
    rw [hp]
    have h1 : natVal ['1'] = 1 := by decide
    have h2 : natVal ['2', '3', '4', '5', '6'] = 23456 := by decide
    simp only [Option.map_some', partsVal, h1, h2]
    norm_num
  · norm_num

/-- **C3** (amended): `parse_brl_amount` unconditionally treats `,` as
the decimal separator and `.` as a thousands separator, whatever their
relative order: for all digit groups `a`, `b`, `c`, the BRL-style string
`a.b,c` parses to the value with integer part `ab` and fraction `c`,
while the US-style string `a,b.c` parses to the value with integer part
`a` and fraction `bc` (so `"1.234,56" → 1234.56` but
`"1,234.56" → 1.23456`). -/
theorem removeDots_append (xs ys : List Char) :
    removeDots (xs ++ ys) = removeDots xs ++ removeDots ys := by
  simp [removeDots]

theorem removeDots_cons_dot (ys : List Char) :
    removeDots ('.' :: ys) = removeDots ys := by
  simp [removeDots]

theorem removeDots_cons_comma (ys : List Char) :
    removeDots (',' :: ys) = ',' :: removeDots ys := by
  simp [removeDots]

theorem commaToDot_append (xs ys : List Char) :
    commaToDot (xs ++ ys) = commaToDot xs ++ commaToDot ys := by
  simp [commaToDot]

theorem commaToDot_cons_comma (ys : List Char) :
    commaToDot (',' :: ys) = '.' :: commaToDot ys := by
  simp [commaToDot]

theorem parse_brl_amount_amended (a b c : List Char)
    (ha : a ≠ []) (hb : b ≠ []) (hc : c ≠ [])
    (hda : ∀ x ∈ a, x.isDigit = true) (hdb : ∀ x ∈ b, x.isDigit = true)
    (hdc : ∀ x ∈ c, x.isDigit = true) :
    parse_brl_amount ⟨a ++ ('.' :: (b ++ (',' :: c)))⟩
        = some ((natVal (a ++ b) : ℚ) + (natVal c : ℚ) / 10 ^ c.length) ∧
      parse_brl_amount ⟨a ++ (',' :: (b ++ ('.' :: c)))⟩
        = some ((natVal a : ℚ)
            + (natVal (b ++ c) : ℚ) / 10 ^ (b.length + c.length)) := by
  have hnwsA : ∀ x ∈ a ++ ('.' :: (b ++ (',' :: c))), isWs x = false := by
    intro x hx
    rcases List.mem_append.mp hx with hx | hx
    · exact isDigit_not_ws (hda x hx)
    · rcases List.mem_cons.mp hx with rfl | hx
      · decide
      · rcases List.mem_append.mp hx with hx | hx
        · exact isDigit_not_ws (hdb x hx)
        · rcases List.mem_cons.mp hx with rfl | hx
          · decide
          · exact isDigit_not_ws (hdc x hx)
  have hnwsB : ∀ x ∈ a ++ (',' :: (b ++ ('.' :: c))), isWs x = false := by
    intro x hx
    rcases List.mem_append.mp hx with hx | hx
    · exact isDigit_not_ws (hda x hx)
    · rcases List.mem_cons.mp hx with rfl | hx
      · decide
      · rcases List.mem_append.mp hx with hx | hx
        · exact isDigit_not_ws (hdb x hx)
        · rcases List.mem_cons.mp hx with rfl | hx
          · decide
          · exact isDigit_not_ws (hdc x hx)
  have hdab : ∀ x ∈ a ++ b, x.isDigit = true := by
    intro x hx
    rcases List.mem_append.mp hx with hx | hx
    · exact hda x hx
    · exact hdb x hx
  have hdbc : ∀ x ∈ b ++ c, x.isDigit = true := by
    intro x hx
    rcases List.mem_append.mp hx with hx | hx
    · exact hdb x hx
    · exact hdc x hx
  constructor
  · show parseFloat ⟨commaToDot (removeDots (pyStripL
        ((⟨a ++ ('.' :: (b ++ (',' :: c)))⟩ : String).data)))⟩ = _
    rw [show (⟨a ++ ('.' :: (b ++ (',' :: c)))⟩ : String).data
        = a ++ ('.' :: (b ++ (',' :: c))) from rfl]
    rw [pyStripL_eq_self hnwsA]
    rw [show commaToDot (removeDots (a ++ ('.' :: (b ++ (',' :: c)))))
        = (a ++ b) ++ '.' :: c from by
      rw [removeDots_append, removeDots_cons_dot, removeDots_append,
        removeDots_cons_comma]
      rw [filter_eq_self_of_digits hda, filter_eq_self_of_digits hdb,
        filter_eq_self_of_digits hdc]
      rw [commaToDot_append, commaToDot_append, commaToDot_cons_comma]
      rw [commaToDot_digits hda, commaToDot_digits hdb, commaToDot_digits hdc]
      simp]
    have h := parseFloat_core false (a ++ b) c (by simp [ha]) hdab hdc
    simpa using h
  · show parseFloat ⟨commaToDot (removeDots (pyStripL
        ((⟨a ++ (',' :: (b ++ ('.' :: c)))⟩ : String).data)))⟩ = _
    rw [show (⟨a ++ (',' :: (b ++ ('.' :: c)))⟩ : String).data
        = a ++ (',' :: (b ++ ('.' :: c))) from rfl]
    rw [pyStripL_eq_self hnwsB]
    rw [show commaToDot (removeDots (a ++ (',' :: (b ++ ('.' :: c)))))
        = a ++ '.' :: (b ++ c) from by
      rw [removeDots_append, removeDots_cons_comma, removeDots_append,
        removeDots_cons_dot]
      rw [filter_eq_self_of_digits hda, filter_eq_self_of_digits hdb,
        filter_eq_self_of_digits hdc]
      rw [commaToDot_append, commaToDot_cons_comma]
      rw [commaToDot_digits hda, commaToDot_digits hdbc]]
    have h := parseFloat_core false a (b ++ c) ha hda hdbc
    have hlen : (b ++ c).length = b.length + c.length := List.length_append b c
    rw [hlen] at h
    simpa using h

/-- **C3 witness**: the amended rule at `"1.234,56"` and `"1,234.56"`. -/
theorem parse_brl_amount_witness :
    parse_brl_amount ⟨['1'] ++ ('.' :: (['2', '3', '4'] ++ (',' :: ['5', '6'])))⟩
        = some ((natVal (['1'] ++ ['2', '3', '4']) : ℚ)
            + (natVal ['5', '6'] : ℚ) / 10 ^ (['5', '6'] : List Char).length) ∧
      parse_brl_amount ⟨['1'] ++ (',' :: (['2', '3', '4'] ++ ('.' :: ['5', '6'])))⟩
        = some ((natVal ['1'] : ℚ)
            + (natVal (['2', '3', '4'] ++ ['5', '6']) : ℚ)
              / 10 ^ ((['2', '3', '4'] : List Char).length
                  + (['5', '6'] : List Char).length)) :=
  parse_brl_amount_amended ['1'] ['2', '3', '4'] ['5', '6']
    (by decide) (by decide) (by decide) (by decide) (by decide) (by decide)

/-! ## Region Bounder (itau.py:284-343)

`_iter_page_lines` scans each page's columns (left first, then right) for
the normalized start marker (`"lancamentos:comprasesaques"`, modern layout
only) and stop marker (`"comprasparceladas"`), recording the `y0` of the
first hit per column; the per-column scan stops at the column's stop
marker.  `_apply_marker` keeps the lines strictly below a column's start
marker and strictly above its stop marker, discarding the whole right
column when the left column has a stop marker.  The page loop breaks after
processing the first page with a stop marker in either column.

The y-coordinates (floats in the source) are modelled as `Int`; only their
ordering matters to this logic. -/

/-- Accent-stripping for the characters the markers and statement text can
contain (the effect of NFKD + combining-character removal in
`_normalize_text`). -/
def stripAccentChar (c : Char) : Char :=
  if c = 'á' ∨ c = 'à' ∨ c = 'â' ∨ c = 'ã' ∨ c = 'ä' then 'a'
  else if c = 'Á' ∨ c = 'À' ∨ c = 'Â' ∨ c = 'Ã' ∨ c = 'Ä' then 'A'
  else if c = 'é' ∨ c = 'ê' ∨ c = 'è' ∨ c = 'ë' then 'e'
  else if c = 'É' ∨ c = 'Ê' ∨ c = 'È' ∨ c = 'Ë' then 'E'
  else if c = 'í' ∨ c = 'î' ∨ c = 'ì' then 'i'
  else if c = 'Í' ∨ c = 'Î' ∨ c = 'Ì' then 'I'
  else if c = 'ó' ∨ c = 'ô' ∨ c = 'õ' ∨ c = 'ò' ∨ c = 'ö' then 'o'
  else if c = 'Ó' ∨ c = 'Ô' ∨ c = 'Õ' ∨ c = 'Ò' ∨ c = 'Ö' then 'O'
  else if c = 'ú' ∨ c = 'û' ∨ c = 'ù' ∨ c = 'ü' then 'u'
  else if c = 'Ú' ∨ c = 'Û' ∨ c = 'Ù' ∨ c = 'Ü' then 'U'
  else if c = 'ç' then 'c'
  else if c = 'Ç' then 'C'
  else c

/-- ASCII lower-casing (`str.lower()` restricted to the characters in
play; accents have been stripped before this point). -/
def asciiLower (c : Char) : Char :=
  if 'A' ≤ c ∧ c ≤ 'Z' then Char.ofNat (c.toNat + 32) else c

/-- `_normalize_text` (itau.py:201-204): delete whitespace, strip accents,
lower-case. -/
def normalizeMarkerL (cs : List Char) : List Char :=
  (stripWsL cs).map (fun c => asciiLower (stripAccentChar c))

/-- Is `pat` a prefix of `cs`? -/
def hasPrefixL : List Char → List Char → Bool
  | [], _ => true
  | _ :: _, [] => false
  | p :: ps, c :: cs => p = c && hasPrefixL ps cs

/-- Python's `pat in cs` substring test. -/
def containsL (pat : List Char) : List Char → Bool
  | [] => hasPrefixL pat []
  | c :: cs => hasPrefixL pat (c :: cs) || containsL pat cs

/-- The normalized start marker (`_iter_page_lines`, itau.py:289). -/
def startMarker : List Char := normalizeMarkerL ("lançamentos: compras e saques").data

/-- The normalized stop marker (itau.py:305). -/
def stopMarker : List Char := ("comprasparceladas").data

/-- Does a line's normalized text contain the start marker? -/
def lineHasStart (s : String) : Bool := containsL startMarker (normalizeMarkerL s.data)

/-- Does a line's normalized text contain the stop marker? -/
def lineHasStop (s : String) : Bool := containsL stopMarker (normalizeMarkerL s.data)

/-- `Layout` (itau.py:36-38). -/
inductive Layout
  | legacy
  | modern
  deriving Repr, DecidableEq

/-- The two fields of `LineInfo` that the Region Bounder reads. -/
structure Line where
  y0 : Int
  text : String
  deriving Repr, DecidableEq

/-- One page's lines split by column (`_extract_page_lines` output). -/
structure PageLines where
  left : List Line
  right : List Line
  deriving Repr, DecidableEq

/-- Column tag. -/
inductive Col
  | left
  | right
  deriving Repr, DecidableEq

/-- The marker dictionary built per page by `_iter_page_lines`
(itau.py:293-307). -/
structure Marker where
  left : Option Int
  right : Option Int
  startLeft : Option Int
  startRight : Option Int
  deriving Repr, DecidableEq

/-- One column's marker scan (`_iter_page_lines` inner loop,
itau.py:299-307): record the start marker's `y0` at its first occurrence
(modern layout only), stop the scan at the first stop-marker line,
recording its `y0`.  Returns `(start_y, stop_y)`. -/
def scanColumn (layout : Layout) : List Line → Option Int → Option Int × Option Int
  | [], start => (start, none)
  | l :: ls, start =>
    let start := if layout = Layout.modern ∧ start = none ∧ lineHasStart l.text
      then some l.y0 else start
    if lineHasStop l.text then (start, some l.y0)
    else scanColumn layout ls start

/-- The per-page marker dictionary: left column scanned first, then the
right column, independently. -/
def pageMarker (layout : Layout) (pl : PageLines) : Marker :=
  let sl := scanColumn layout pl.left none
  let sr := scanColumn layout pl.right none
  ⟨sl.2, sr.2, sl.1, sr.1⟩

/-- Start-marker scoping: keep lines strictly below the start marker
(`_apply_marker`, itau.py:320-323). -/
def startScope (s : Option Int) (ls : List Line) : List Line :=
  match s with
  | some y => ls.filter (fun l => l.y0 > y)
  | none => ls

/-- `_apply_marker` (itau.py:314-329): start-marker scoping per column,
then — if the left column has a stop marker — truncate the left column at
it and discard the right column entirely; otherwise, if the right column
has a stop marker, truncate only the right column. -/
def apply_marker (pl : PageLines) (m : Marker) : List Line × List Line :=
  let leftLines := startScope m.startLeft pl.left
  let rightLines := startScope m.startRight pl.right
  match m.left with
  | some y => (leftLines.filter (fun l => l.y0 < y), [])
  | none =>
    match m.right with
    | some y => (leftLines, rightLines.filter (fun l => l.y0 < y))
    | none => (leftLines, rightLines)

/-- The page loop of `extract_statement_rows_with_layout` /
`_extract_line_blocks` (itau.py:332-343, 833-852): process pages in order,
collecting the in-scope lines (left column first, then right), and stop
after the first page whose marker dictionary has a stop entry in either
column. -/
def processPages (layout : Layout) : List PageLines → List (Col × Line)
  | [] => []
  | p :: rest =>
    let m := pageMarker layout p
    let lr := apply_marker p m
    let out := lr.1.map (fun l => (Col.left, l))
      ++ lr.2.map (fun l => (Col.right, l))
    if m.left ≠ none ∨ m.right ≠ none then out
    else out ++ processPages layout rest

/-- **C2**: stop-marker semantics of the Region Bounder.  On the first
page whose marker scan finds a stop marker: (1) a stop marker in the left
column truncates the left column at it, discards the entire right column
(whatever it contains — including a stop marker of its own), and nothing
after this page is processed; (2) a stop marker found only in the right
column truncates only the right column, leaving the page's left column
untouched (beyond start-marker scoping), and nothing after this page is
processed; (3) a page without stop markers contributes all its in-scope
lines and processing continues with the remaining pages. -/
theorem region_stop_marker (layout : Layout) (p : PageLines)
    (rest : List PageLines) :
    (∀ y : Int, (pageMarker layout p).left = some y →
      processPages layout (p :: rest)
        = ((startScope (pageMarker layout p).startLeft p.left).filter
            (fun l => l.y0 < y)).map (fun l => (Col.left, l))) ∧
    ((pageMarker layout p).left = none →
      ∀ y : Int, (pageMarker layout p).right = some y →
      processPages layout (p :: rest)
        = (startScope (pageMarker layout p).startLeft p.left).map
            (fun l => (Col.left, l))
          ++ ((startScope (pageMarker layout p).startRight p.right).filter
              (fun l => l.y0 < y)).map (fun l => (Col.right, l))) ∧
    ((pageMarker layout p).left = none → (pageMarker layout p).right = none →
      processPages layout (p :: rest)
        = (startScope (pageMarker layout p).startLeft p.left).map
            (fun l => (Col.left, l))
          ++ (startScope (pageMarker layout p).startRight p.right).map
            (fun l => (Col.right, l))
          ++ processPages layout rest) := by
  refine ⟨?_, ?_, ?_⟩
  · intro y hy
    show (let m := pageMarker layout p
      let lr := apply_marker p m
      let out := lr.1.map (fun l => (Col.left, l))
        ++ lr.2.map (fun l => (Col.right, l))
      if m.left ≠ none ∨ m.right ≠ none then out
      else out ++ processPages layout rest) = _
    simp only [apply_marker, hy]
    rw [if_pos (Or.inl (by simp [hy]))]
    simp
  · intro hl y hy
    show (let m := pageMarker layout p
      let lr := apply_marker p m
      let out := lr.1.map (fun l => (Col.left, l))
        ++ lr.2.map (fun l => (Col.right, l))
      if m.left ≠ none ∨ m.right ≠ none then out
      else out ++ processPages layout rest) = _
    simp [apply_marker, hl, hy]
  · intro hl hr
    show (let m := pageMarker layout p
      let lr := apply_marker p m
      let out := lr.1.map (fun l => (Col.left, l))
        ++ lr.2.map (fun l => (Col.right, l))
      if m.left ≠ none ∨ m.right ≠ none then out
      else out ++ processPages layout rest) = _
    simp [apply_marker, hl, hr]

/-- **C2 witness**: a concrete two-page document whose first page has the
stop marker in both columns; the left stop wins: output is the left lines
above the left stop only, the right column (with content above its own
stop marker) is discarded, and the second page is never processed. -/
theorem region_stop_marker_witness :
    (pageMarker Layout.legacy
        ⟨[⟨10, "01/02"⟩, ⟨20, "Compras parceladas"⟩, ⟨30, "below"⟩],
         [⟨5, "right line"⟩, ⟨15, "Compras parceladas"⟩]⟩).left = some 20 ∧
      processPages Layout.legacy
        [⟨[⟨10, "01/02"⟩, ⟨20, "Compras parceladas"⟩, ⟨30, "below"⟩],
          [⟨5, "right line"⟩, ⟨15, "Compras parceladas"⟩]⟩,
         ⟨[⟨1, "next page"⟩], []⟩]
        = [(Col.left, ⟨10, "01/02"⟩)] := by
  refine ⟨by decide, ?_⟩
  rw [(region_stop_marker Layout.legacy
    ⟨[⟨10, "01/02"⟩, ⟨20, "Compras parceladas"⟩, ⟨30, "below"⟩],
     [⟨5, "right line"⟩, ⟨15, "Compras parceladas"⟩]⟩
    [⟨[⟨1, "next page"⟩], []⟩]).1 20 (by decide)]
  decide

/-! ## Statement Reconstructor (itau.py:399-563, 781-899)

Python `while` loops over a line index become fuel-based recursions with
fuel initialised to the number of lines; every iteration consumes at least
one line and one unit of fuel, so the out-of-fuel branch is unreachable. -/

/-- `^\d{1,2}/\d{1,2}$` on an already-normalized character list, returning
the two digit groups.  The regex's backtracking is deterministic here:
`\d{1,2}` followed by `/` (resp. end) must take the whole leading digit
run, which must have length 1 or 2. -/
def dateParts (cs : List Char) : Option (List Char × List Char) :=
  let ds := cs.takeWhile Char.isDigit
  if 1 ≤ ds.length ∧ ds.length ≤ 2 then
    match cs.dropWhile Char.isDigit with
    | '/' :: rest =>
      let ms := rest.takeWhile Char.isDigit
      if 1 ≤ ms.length ∧ ms.length ≤ 2 ∧ rest.dropWhile Char.isDigit = []
      then some (ds, ms) else none
    | _ => none
  else none

/-- Does the whitespace-normalized text match `^\d{1,2}/\d{1,2}$`? -/
def isDateText (cs : List Char) : Bool := (dateParts cs).isSome

/-- `re.match(r"^\d{1,2}/\d{1,2}$", re.sub(r"\s+", "", line))`. -/
def isDateLine (s : String) : Bool := isDateText (stripWsL s.data)

/-- The `(?:\.\d{3})*,\d{2}$` tail of the grouped amount grammar. -/
def groupedRest : List Char → Bool
  | [',', d1, d2] => d1.isDigit && d2.isDigit
  | '.' :: d1 :: d2 :: d3 :: rest =>
    d1.isDigit && d2.isDigit && d3.isDigit && groupedRest rest
  | _ => false

/-- `\d{1,3}(?:\.\d{3})*,\d{2}$` (after the optional sign). -/
def matchGroupedBody (cs : List Char) : Bool :=
  let ds := cs.takeWhile Char.isDigit
  1 ≤ ds.length && ds.length ≤ 3 && groupedRest (cs.dropWhile Char.isDigit)

/-- `\d+,\d{2}$` (after the optional sign). -/
def matchPlainBody (cs : List Char) : Bool :=
  let ds := cs.takeWhile Char.isDigit
  1 ≤ ds.length &&
    match cs.dropWhile Char.isDigit with
    | [',', d1, d2] => d1.isDigit && d2.isDigit
    | _ => false

/-- `_normalize_amount_text` (itau.py:399-407): strip all whitespace;
reject the empty string and anything that matches neither
`^-?\d{1,3}(?:\.\d{3})*,\d{2}$` nor `^-?\d+,\d{2}$`; return the cleaned
text with the thousands dots removed. -/
def normalize_amount_text (value : String) : Option String :=
  let cleaned := stripWsL value.data
  if cleaned = [] then none
  else
    let body := match cleaned with
      | '-' :: r => r
      | r => r
    if matchGroupedBody body || matchPlainBody body
    then some ⟨removeDots cleaned⟩ else none

/-- The per-line effect of `re.sub(r"(?m)^(\d{1,2})/(\d)\s+(\d)$",
r"\1/\2\3", block)` (itau.py:413-417, 513-517): a line that is exactly a
1-2 digit day, a slash, one digit, whitespace, one digit is rewritten
without the whitespace.  (The substitution is applied to the whole block
in the source; a `\s+` run spanning a line boundary — which would merge a
line holding exactly one digit into the previous line — is not modelled,
as no claim exercises it.) -/
def fixSpacedDateLine (s : String) : String :=
  let cs := s.data
  let ds := cs.takeWhile Char.isDigit
  if 1 ≤ ds.length ∧ ds.length ≤ 2 then
    match cs.dropWhile Char.isDigit with
    | '/' :: m1 :: rest =>
      if m1.isDigit ∧ rest.takeWhile isWs ≠ [] then
        match rest.dropWhile isWs with
        | [m2] => if m2.isDigit then ⟨ds ++ '/' :: [m1, m2]⟩ else s
        | _ => s
      else s
    | _ => s
  else s

/-- `re.sub(r"-\s+(?=\d)", "-", s)`: a dash followed by whitespace
followed by a digit loses the whitespace.  Fuel-based (each step consumes
at least one character). -/
def subDashSpaceFuel : Nat → List Char → List Char
  | _, [] => []
  | 0, rest => rest
  | n + 1, c :: cs =>
    if c = '-' then
      if !(cs.takeWhile isWs).isEmpty &&
          (match cs.dropWhile isWs with
           | d :: _ => d.isDigit
           | [] => false) then
        '-' :: subDashSpaceFuel n (cs.dropWhile isWs)
      else '-' :: subDashSpaceFuel n cs
    else c :: subDashSpaceFuel n cs

/-- `re.sub(r"-\s+(?=\d)", "-", s)`. -/
def subDashSpace (cs : List Char) : List Char :=
  subDashSpaceFuel cs.length cs

/-- The fallback branch of `match_to_csv` (itau.py:874-882): collapse
whitespace runs, turn commas into dots and newlines into commas, fix
dash-space, and splice `"/" ++ year` after the fifth character. -/
def matchToCsvFallback (m : String) (year : String) : String :=
  let s1 := (collapseWs2 m).data
  let s2 := (commaToDot s1).map (fun c => if c = '\n' then ',' else c)
  let s3 := subDashSpace s2
  if s3.length > 5 then ⟨s3.take 5 ++ ('/' :: year.data) ++ s3.drop 5⟩
  else ⟨s3⟩

/-- `match_to_csv` (itau.py:855-882): for a match of at least three lines
whose first line is a `DD/MM` date, emit
`"{d}/{m}/{year},{description},{amount}"`, folding a fourth-line
installment tag into the description and normalizing the amount's spacing
and decimal separator; otherwise fall back to a crude textual rewrite. -/
def match_to_csv (m : String) (year : String) : String :=
  let lines := pySplitlines m
  if lines.length ≥ 3 then
    match dateParts (stripWsL (lines.getD 0 "").data) with
    | some (d, mo) =>
      let datePart := (⟨d⟩ : String) ++ "/" ++ (⟨mo⟩ : String) ++ "/" ++ year
      let description := pyStrip (collapseWs2 (lines.getD 1 ""))
      let instNorm := stripWs (lines.getD 2 "")
      let withInst := lines.length ≥ 4 ∧ isDateText instNorm.data
      let description := if withInst then description ++ " " ++ instNorm
        else description
      let amountLine := if withInst then lines.getD 3 "" else lines.getD 2 ""
      let amount := subDashSpace (commaToDot (stripWsL amountLine.data))
      datePart ++ "," ++ description ++ "," ++ (⟨amount⟩ : String)
    | none => matchToCsvFallback m year
  else matchToCsvFallback m year

/-- Python `" ".join(xs)`. -/
def joinSpace : List String → String
  | [] => ""
  | [x] => x
  | x :: xs => x ++ " " ++ joinSpace xs

/-- Python `",".join(xs)`. -/
def joinComma : List String → String
  | [] => ""
  | [x] => x
  | x :: xs => x ++ "," ++ joinComma xs

/-- Build the CSV row of `_parse_block_basic` / `_parse_block_with_metadata`
(itau.py:500-505, 555-558) from a reconstructed match text:
`index,date_part,payment_field,description,amount` with
`(date_part, description, amount) = match_to_csv(match, year).split(",", 2)`.
(`split(",", 2)` always yields three parts here; the source would raise on
fewer.) -/
def mkRow (index : Nat) (mtext : String) (year : String)
    (pd : Option String) : String :=
  let parts := pySplitMax (match_to_csv mtext year) ',' 2
  Nat.repr index ++ "," ++ parts.getD 0 "" ++ "," ++ pd.getD "" ++ ","
    ++ parts.getD 1 "" ++ "," ++ parts.getD 2 ""

/-- The accumulation scan of `_parse_block_basic` (itau.py:530-549): walk
the lines after a date line; an amount line terminates the entry; a date
line immediately followed by an amount line terminates it as an
installment entry; anything else joins the description.  Returns
`(desc_lines, installment, amount, remaining_lines)`. -/
def scanEntry : List String → List String →
    Option (List String × Option String × String × List String)
  | [], _ => none
  | l :: rest, acc =>
    let candidate := pyStrip l
    match normalize_amount_text candidate with
    | some amt => some (acc, none, amt, rest)
    | none =>
      if isDateLine candidate then
        match rest with
        | r :: rest2 =>
          match normalize_amount_text r with
          | some amt => some (acc, some (stripWs candidate), amt, rest2)
          | none => scanEntry rest (acc ++ [candidate])
        | [] => scanEntry rest (acc ++ [candidate])
      else scanEntry rest (acc ++ [candidate])

/-- The outer loop of `_parse_block_basic` (itau.py:520-563). -/
def parseBasicGo : Nat → List String → String → Option String → Nat →
    List String × Nat
  | _, [], _, _, index => ([], index)
  | 0, _, _, _, index => ([], index)
  | fuel + 1, l :: rest, year, pd, index =>
    if isDateLine l then
      match scanEntry rest [] with
      | some (descs, inst, amt, rest2) =>
        if descs ≠ [] then
          let descs2 := match inst with
            | some i => descs ++ [i]
            | none => descs
          let mtext := stripWs l ++ "\n" ++ joinSpace descs2 ++ "\n" ++ amt
          let out := parseBasicGo fuel rest2 year pd (index + 1)
          (mkRow index mtext year pd :: out.1, out.2)
        else parseBasicGo fuel rest year pd index
      | none => parseBasicGo fuel rest year pd index
    else parseBasicGo fuel rest year pd index

/-- `_parse_block_basic` (itau.py:510-563). -/
def parse_block_basic (block : String) (year : String) (pd : Option String)
    (index : Nat) : List String × Nat :=
  let lines := ((pySplitlines block).map fixSpacedDateLine).filter
    (fun l => pyStrip l ≠ "")
  parseBasicGo lines.length lines year pd index

/-- The in-flight statement dictionary of `_parse_block_with_metadata`. -/
structure StmtRec where
  date : String
  desc : String
  installment : Option String
  amount : Option String
  category : String
  location : String
  deriving Repr, DecidableEq

/-- The pending-metadata branch of `_parse_block_with_metadata`
(itau.py:474-483): while the FIFO queue is non-empty, a line with at
least two whitespace-separated tokens is rsplit at its last space into
category/location, assigned to the oldest pending statement, consuming
it; any other line is skipped without consuming a pending entry.
(A line with two tokens separated only by non-space whitespace would make
the source raise `IndexError` on `parts[1]`; the model assigns an empty
location instead — no claim exercises that input.) -/
def metaPendingStep (rawLine : String) (stmts : List StmtRec)
    (pending : List Nat) : List StmtRec × List Nat :=
  match pending with
  | [] => (stmts, pending)
  | idx :: pending' =>
    if (pyTokens rawLine).length ≥ 2 then
      let parts := pyRsplitSpace rawLine
      match stmts.get? idx with
      | some s =>
        let s2 := { s with category := pyStrip (parts.getD 0 ""),
                           location := pyStrip (parts.getD 1 "") }
        (stmts.set idx s2, pending')
      | none => (stmts, pending')
    else (stmts, pending)

/-- The state-machine loop of `_parse_block_with_metadata`
(itau.py:422-485).  State: remaining lines, current in-flight statement,
closed statements (in order), FIFO queue of pending statement indices. -/
def parseMetaGo : Nat → List String → Option StmtRec → List StmtRec →
    List Nat → List StmtRec
  | _, [], _, stmts, _ => stmts
  | 0, _, _, stmts, _ => stmts
  | fuel + 1, l :: rest, current, stmts, pending =>
    let rawLine := pyStrip l
    let normalized := stripWs rawLine
    if isDateText normalized.data then
      let cur1 := match current with
        | some c => if c.amount = none then none else some c
        | none => none
      let cur2 := match cur1 with
        | none => some ⟨normalized, "", none, none, "", ""⟩
        | some c => some c
      parseMetaGo fuel rest cur2 stmts pending
    else
      match current with
      | some c =>
        if c.amount = none then
          match normalize_amount_text rawLine with
          | some amt =>
            parseMetaGo fuel rest none (stmts ++ [{ c with amount := some amt }])
              (pending ++ [stmts.length])
          | none =>
            -- itau.py:451-464; the guard re-tests the same date pattern
            -- that failed the branch above, so it is provably dead code.
            if isDateText normalized.data then
              match rest with
              | r :: rest2 =>
                match normalize_amount_text r with
                | some amt =>
                  let c2 := { c with installment := some normalized,
                                     amount := some amt }
                  parseMetaGo fuel rest2 none
                    (stmts ++ [c2]) (pending ++ [stmts.length])
                | none =>
                  parseMetaGo fuel rest (some { c with desc :=
                    if c.desc = "" then rawLine
                    else c.desc ++ " " ++ rawLine }) stmts pending
              | [] =>
                parseMetaGo fuel rest (some { c with desc :=
                  if c.desc = "" then rawLine
                  else c.desc ++ " " ++ rawLine }) stmts pending
            else
              parseMetaGo fuel rest (some { c with desc :=
                if c.desc = "" then rawLine
                else c.desc ++ " " ++ rawLine }) stmts pending
        else
          let sp := metaPendingStep rawLine stmts pending
          parseMetaGo fuel rest current sp.1 sp.2
      | none =>
        let sp := metaPendingStep rawLine stmts pending
        parseMetaGo fuel rest current sp.1 sp.2

/-- The output assembly of `_parse_block_with_metadata` (itau.py:487-507):
skip statements with a falsy amount, description, or date; fold a truthy
installment into a four-line match text; append category and location. -/
def metaOutput : List StmtRec → String → Option String → Nat →
    List String × Nat
  | [], _, _, index => ([], index)
  | s :: ss, year, pd, index =>
    if s.amount ≠ none ∧ s.amount ≠ some "" ∧ s.desc ≠ "" ∧ s.date ≠ "" then
      let mtext := match s.installment with
        | some inst =>
          if inst = "" then s.date ++ "\n" ++ s.desc ++ "\n" ++ s.amount.getD ""
          else s.date ++ "\n" ++ s.desc ++ "\n" ++ inst ++ "\n"
            ++ s.amount.getD ""
        | none => s.date ++ "\n" ++ s.desc ++ "\n" ++ s.amount.getD ""
      let row := mkRow index mtext year pd ++ "," ++ s.category ++ ","
        ++ s.location
      let out := metaOutput ss year pd (index + 1)
      (row :: out.1, out.2)
    else metaOutput ss year pd index

/-- `_parse_block_with_metadata` (itau.py:410-507). -/
def parse_block_with_metadata (block : String) (year : String)
    (pd : Option String) (index : Nat) : List String × Nat :=
  let lines := ((pySplitlines block).map fixSpacedDateLine).filter
    (fun l => pyStrip l ≠ "")
  metaOutput (parseMetaGo lines.length lines none [] []) year pd index

/-- `blocks_to_statements` (itau.py:781-799), with the running index. -/
def blocksGo : List String → String → Option String → Bool → Nat →
    List String
  | [], _, _, _, _ => []
  | b :: bs, year, pd, enh, index =>
    let parsed := if enh then parse_block_with_metadata b year pd index
      else parse_block_basic b year pd index
    parsed.1 ++ blocksGo bs year pd enh parsed.2

/-- `blocks_to_statements` (itau.py:781-799). -/
def blocks_to_statements (blocks : List String) (year : String)
    (pd : Option String) (enhanced : Bool) : List String :=
  blocksGo blocks year pd enhanced 0

/-! ## Normalizer: sign flip (`flip_sign_last_column`, itau.py:885-899) -/

/-- One row of `flip_sign_last_column`: split at the first six commas; if
there are at least five columns and the fifth parses as a float (after
`,`→`.`), negate it and re-render; otherwise the row passes through
unchanged (the `except ValueError: pass` path re-joins the untouched
columns). -/
def flipRow (row : String) : String :=
  let columns := pySplitMax row ',' 6
  if columns.length < 5 then row
  else
    match parseFloatParts ⟨commaToDot (columns.getD 4 "").data⟩ with
    | some p =>
      joinComma (columns.set 4 (pyFloatStr { p with neg := !p.neg }))
    | none => joinComma columns

/-- `flip_sign_last_column` (itau.py:885-899). -/
def flip_sign_last_column (rows : List String) : List String :=
  rows.map flipRow

/-! ## Reconciler comparison (`check_total`, itau.py:950-962) and the
per-document driver loop of `cli.py` (lines 736-795). -/

/-- The two failure modes of `check_total`: a row whose fifth
comma-separated field is missing or unparseable (the wrapped
`IndexError`/`ValueError`), or a rounded-total mismatch carrying the
expected total, the computed total, and their difference (the values
interpolated into the `"Total mismatch"` message). -/
inductive CheckError
  | parseError
  | mismatch (expected computed diff : ℚ)
  deriving Repr, DecidableEq

/-- Python `round(x, 2)`.  (Python rounds halves to even; `round` here
rounds halves up.  The sums compared are exact two-decimal rationals, for
which `x * 100` is an integer and both conventions are the identity.) -/
def round2 (q : ℚ) : ℚ := (round (q * 100) : ℤ) / 100

/-- `float(row.split(",")[4])`: `none` models the raised
`IndexError`/`ValueError`. -/
def rowAmount (row : String) : Option ℚ :=
  match (pySplit row ',').get? 4 with
  | none => none
  | some f => parseFloat f

/-- `sum(float(row.split(",")[4]) for row in csv_data)`. -/
def sumAmounts : List String → Option ℚ
  | [] => some 0
  | r :: rs =>
    match rowAmount r, sumAmounts rs with
    | some a, some s => some (a + s)
    | _, _ => none

/-- `check_total` (itau.py:950-962). -/
def check_total (rows : List String) (expected : ℚ) : Except CheckError Unit :=
  match sumAmounts rows with
  | none => .error .parseError
  | some s =>
    if round2 s ≠ round2 expected then
      .error (.mismatch expected s (expected - s))
    else .ok ()

/-- What the `cli.py` per-document loop (lines 736-795) produces for one
document: whether the total was missing, the recorded (non-fatal)
`check_total` error if any, and the emitted rows. -/
structure DocOutcome where
  totalMissing : Bool
  mismatch : Option CheckError
  rows : List String
  deriving Repr, DecidableEq

/-- The per-document flow of `parse_itau` in `cli.py` (736-795): parse
statements, compare against the expected total when one is available
(recording — not raising — any `check_total` error), then flip signs and
emit the rows regardless. -/
def processDocument (statements : List String) (expectedTotal : Option ℚ) :
    DocOutcome :=
  match expectedTotal with
  | none => ⟨true, none, flip_sign_last_column statements⟩
  | some t =>
    match check_total statements t with
    | .ok _ => ⟨false, none, flip_sign_last_column statements⟩
    | .error e => ⟨false, some e, flip_sign_last_column statements⟩

/-! ### String primitive lemmas for the reconstructor proofs -/

theorem splitCharAll_sep_free {sep : Char} :
    ∀ cs : List Char, sep ∉ cs → splitCharAll sep cs = [cs] := by
  intro cs h
  induction cs with
  | nil => rfl
  | cons c cs ih =>
    have hc : c ≠ sep := fun he => h (he ▸ List.mem_cons_self c cs)
    have hcs : sep ∉ cs := fun hm => h (List.mem_cons_of_mem _ hm)
    simp only [splitCharAll, if_neg hc]
    rw [ih hcs]

theorem splitCharAll_cons (sep c : Char) (cs : List Char) :
    splitCharAll sep (c :: cs)
      = if c = sep then [] :: splitCharAll sep cs
        else match splitCharAll sep cs with
          | [] => [[c]]
          | p :: ps => (c :: p) :: ps := rfl

theorem splitCharAll_append {sep : Char} :
    ∀ xs rest : List Char, sep ∉ xs →
      splitCharAll sep (xs ++ sep :: rest) = xs :: splitCharAll sep rest := by
  intro xs rest h
  induction xs with
  | nil => simp [splitCharAll]
  | cons x xs ih =>
    have hx : x ≠ sep := fun he => h (he ▸ List.mem_cons_self x xs)
    have hxs : sep ∉ xs := fun hm => h (List.mem_cons_of_mem _ hm)
    rw [List.cons_append, splitCharAll_cons, if_neg hx, ih hxs]

theorem splitCharAll_ne_nil {sep : Char} :
    ∀ cs : List Char, splitCharAll sep cs ≠ [] := by
  intro cs
  induction cs with
  | nil => simp [splitCharAll]
  | cons c cs ih =>
    by_cases hc : c = sep
    · simp [splitCharAll, hc]
    · simp only [splitCharAll, if_neg hc]
      rcases he : splitCharAll sep cs with _ | ⟨p, ps⟩
      · exact absurd he ih
      · simp

theorem getLast?_mem {α : Type} :
    ∀ (l : List α) (a : α), l.getLast? = some a → a ∈ l := by
  intro l
  induction l with
  | nil => intro a h; cases h
  | cons x xs ih =>
    intro a h
    rcases xs with _ | ⟨y, ys⟩
    · rw [List.getLast?_singleton] at h
      exact (Option.some.inj h) ▸ List.mem_singleton.mpr rfl
    · rw [List.getLast?_cons_cons] at h
      exact List.mem_cons_of_mem _ (ih a h)

theorem getLast?_append_right {α : Type} :
    ∀ (xs ys : List α), ys ≠ [] → (xs ++ ys).getLast? = ys.getLast? := by
  intro xs ys hys
  induction xs with
  | nil => rfl
  | cons x xs ih =>
    rw [List.cons_append]
    rcases hxys : xs ++ ys with _ | ⟨z, zs⟩
    · rcases List.append_eq_nil.mp hxys with ⟨-, h2⟩
      exact absurd h2 hys
    · rw [List.getLast?_cons_cons, ← hxys, ih]

/-- `pySplitlines` of a three-line text with newline-free lines, last line
non-empty. -/
theorem pySplitlines_three (x y z : String)
    (hx : '\n' ∉ x.data) (hy : '\n' ∉ y.data) (hz : '\n' ∉ z.data)
    (hzne : z.data ≠ []) :
    pySplitlines (x ++ "\n" ++ y ++ "\n" ++ z) = [x, y, z] := by
  have hdata : (x ++ "\n" ++ y ++ "\n" ++ z).data
      = x.data ++ '\n' :: (y.data ++ '\n' :: z.data) := by
    simp [String.data_append]
  rw [pySplitlines, hdata]
  have hne : x.data ++ '\n' :: (y.data ++ '\n' :: z.data) ≠ [] := by simp
  rw [if_neg hne]
  have hsplit : splitCharAll '\n' (x.data ++ '\n' :: (y.data ++ '\n' :: z.data))
      = [x.data, y.data, z.data] := by
    rw [splitCharAll_append x.data _ hx, splitCharAll_append y.data _ hy,
      splitCharAll_sep_free z.data hz]
  have hlast : (x.data ++ '\n' :: (y.data ++ '\n' :: z.data)).getLast?
      = z.data.getLast? := by
    rw [getLast?_append_right _ _ (by simp)]
    show (('\n' :: (y.data ++ '\n' :: z.data)) : List Char).getLast? = _
    rw [show ('\n' :: (y.data ++ '\n' :: z.data) : List Char)
        = ('\n' :: y.data) ++ '\n' :: z.data from by simp]
    rw [getLast?_append_right _ _ (by simp)]
    show (('\n' :: z.data) : List Char).getLast? = _
    rw [show ('\n' :: z.data : List Char) = ['\n'] ++ z.data from by simp]
    rw [getLast?_append_right _ _ hzne]
  have hlastne : (x.data ++ '\n' :: (y.data ++ '\n' :: z.data)).getLast?
      ≠ some '\n' := by
    rw [hlast]
    intro he
    exact hz (getLast?_mem z.data '\n' he)
  have hlast2 : (('\n' :: (y.data ++ '\n' :: z.data)) : List Char).getLast?
      ≠ some '\n' := by
    rw [show ('\n' :: (y.data ++ '\n' :: z.data) : List Char)
        = ('\n' :: y.data) ++ '\n' :: z.data from by simp]
    rw [getLast?_append_right _ _ (by simp)]
    rw [show ('\n' :: z.data : List Char) = ['\n'] ++ z.data from by simp]
    rw [getLast?_append_right _ _ hzne]
    intro he
    exact hz (getLast?_mem z.data '\n' he)
  simp [hsplit, hlastne, hlast2]

/-- `splitMaxAux` with no separator present: one part. -/
theorem splitMaxAux_sep_free {sep : Char} :
    ∀ (cs : List Char) (n : Nat) (acc : List Char), sep ∉ cs →
      splitMaxAux sep n cs acc = [acc.reverse ++ cs] := by
  intro cs
  induction cs with
  | nil => intro n acc _; cases n <;> simp [splitMaxAux]
  | cons c cs ih =>
    intro n acc h
    have hc : c ≠ sep := fun he => h (he ▸ List.mem_cons_self c cs)
    have hcs : sep ∉ cs := fun hm => h (List.mem_cons_of_mem _ hm)
    cases n with
    | zero => rfl
    | succ n =>
      simp only [splitMaxAux, if_neg hc]
      rw [ih (n + 1) (c :: acc) hcs]
      simp

theorem splitMaxAux_cons (sep c : Char) (n : Nat) (cs acc : List Char) :
    splitMaxAux sep (n + 1) (c :: cs) acc
      = if c = sep then acc.reverse :: splitMaxAux sep n cs []
        else splitMaxAux sep (n + 1) cs (c :: acc) := rfl

/-- `splitMaxAux` with budget left at a separator-free prefix. -/
theorem splitMaxAux_prefix {sep : Char} :
    ∀ (xs : List Char), sep ∉ xs → ∀ (n : Nat) (rest acc : List Char),
      splitMaxAux sep (n + 1) (xs ++ sep :: rest) acc
        = (acc.reverse ++ xs) :: splitMaxAux sep n rest [] := by
  intro xs hxs
  induction xs with
  | nil =>
    intro n rest acc
    simp [splitMaxAux]
  | cons x xs ih =>
    intro n rest acc
    have hx : x ≠ sep := fun he => hxs (he ▸ List.mem_cons_self x xs)
    have hxs' : sep ∉ xs := fun hm => hxs (List.mem_cons_of_mem _ hm)
    rw [List.cons_append, splitMaxAux_cons, if_neg hx,
      ih hxs' n rest (x :: acc)]
    simp

theorem splitMaxAux_zero {sep : Char} :
    ∀ cs : List Char, splitMaxAux sep 0 cs [] = [cs] := by
  intro cs
  cases cs <;> simp [splitMaxAux]

/-- `splitMaxAux` with budget 1 on text containing the separator: two
parts that re-join to the input. -/
theorem splitMaxAux_one {cs : List Char} :
    ∀ acc : List Char, ',' ∈ cs →
      ∃ p1 p2 : List Char, splitMaxAux ',' 1 cs acc = [p1, p2]
        ∧ p1 ++ ',' :: p2 = acc.reverse ++ cs := by
  induction cs with
  | nil => intro acc h; cases h
  | cons c cs ih =>
    intro acc h
    by_cases hc : c = ','
    · subst hc
      refine ⟨acc.reverse, cs, ?_, rfl⟩
      rw [splitMaxAux_cons]
      simp [splitMaxAux_zero]
    · have hcs : ',' ∈ cs := by
        rcases List.mem_cons.mp h with he | hm
        · exact absurd he.symm hc
        · exact hm
      rcases ih (c :: acc) hcs with ⟨p1, p2, hsplit, hjoin⟩
      refine ⟨p1, p2, ?_, ?_⟩
      · simp only [splitMaxAux, if_neg hc]
        exact hsplit
      · rw [hjoin]; simp

/-! ### Whitespace lemmas -/

theorem stripWsL_no_ws (cs : List Char) :
    ∀ x ∈ stripWsL cs, isWs x = false := by
  intro x hx
  have := List.of_mem_filter hx
  simpa using this

theorem stripWsL_eq_self {cs : List Char}
    (h : ∀ x ∈ cs, isWs x = false) : stripWsL cs = cs := by
  apply List.filter_eq_self.mpr
  intro x hx
  simpa using h x hx

theorem stripWsL_idem (cs : List Char) :
    stripWsL (stripWsL cs) = stripWsL cs :=
  stripWsL_eq_self (stripWsL_no_ws cs)

theorem dropWhile_head_false {p : Char → Bool} :
    ∀ cs : List Char, cs.dropWhile p ≠ [] →
      ∃ y ys, cs.dropWhile p = y :: ys ∧ p y = false := by
  intro cs h
  induction cs with
  | nil => exact absurd rfl h
  | cons c cs ih =>
    by_cases hc : p c
    · rw [List.dropWhile_cons_of_pos hc] at h ⊢
      exact ih h
    · rw [List.dropWhile_cons_of_neg hc]
      exact ⟨c, cs, rfl, Bool.of_not_eq_true hc⟩

theorem dropWhile_ne_nil_of_mem {p : Char → Bool} :
    ∀ cs : List Char, (∃ x ∈ cs, p x = false) → cs.dropWhile p ≠ [] := by
  intro cs h
  induction cs with
  | nil => rcases h with ⟨x, hx, -⟩; cases hx
  | cons c cs ih =>
    by_cases hc : p c
    · rw [List.dropWhile_cons_of_pos hc]
      apply ih
      rcases h with ⟨x, hx, hpx⟩
      rcases List.mem_cons.mp hx with rfl | hm
      · rw [hpx] at hc; cases hc
      · exact ⟨x, hm, hpx⟩
    · rw [List.dropWhile_cons_of_neg hc]
      simp

/-- A string with a non-whitespace character strips to something
non-empty. -/
theorem pyStripL_ne_nil {cs : List Char}
    (h : ∃ x ∈ cs, isWs x = false) : pyStripL cs ≠ [] := by
  unfold pyStripL
  have h1 : cs.dropWhile isWs ≠ [] := dropWhile_ne_nil_of_mem cs h
  rcases dropWhile_head_false cs h1 with ⟨y, ys, hd, hy⟩
  have h2 : (cs.dropWhile isWs).reverse.dropWhile isWs ≠ [] := by
    apply dropWhile_ne_nil_of_mem
    exact ⟨y, List.mem_reverse.mpr (hd ▸ List.mem_cons_self y ys), hy⟩
  intro he
  rw [List.reverse_eq_nil_iff] at he
  exact h2 he

/-- A non-empty stripped string contains a non-whitespace character. -/
theorem pyStripL_has_non_ws {cs : List Char} (h : pyStripL cs ≠ []) :
    ∃ x ∈ pyStripL cs, isWs x = false := by
  unfold pyStripL at h ⊢
  have h2 : (cs.dropWhile isWs).reverse.dropWhile isWs ≠ [] := by
    intro he
    rw [he] at h
    exact h rfl
  rcases dropWhile_head_false _ h2 with ⟨y, ys, hd, hy⟩
  refine ⟨y, ?_, hy⟩
  rw [hd]
  exact List.mem_reverse.mpr (List.mem_cons_self y ys)

theorem mem_of_dropWhile_mem {p : Char → Bool} {x : Char} :
    ∀ cs : List Char, x ∈ cs.dropWhile p → x ∈ cs := by
  intro cs hx
  induction cs with
  | nil => cases hx
  | cons c cs ih =>
    by_cases hc : p c
    · rw [List.dropWhile_cons_of_pos hc] at hx
      exact List.mem_cons_of_mem _ (ih hx)
    · rwa [List.dropWhile_cons_of_neg hc] at hx

theorem pyStripL_subset {cs : List Char} :
    ∀ x ∈ pyStripL cs, x ∈ cs := by
  intro x hx
  unfold pyStripL at hx
  have h1 := List.mem_reverse.mp hx
  have h2 := mem_of_dropWhile_mem _ h1
  have h3 := List.mem_reverse.mp h2
  exact mem_of_dropWhile_mem _ h3

/-- `collapseWs2Fuel` preserves the presence of a non-whitespace
character. -/
theorem collapseWs2Fuel_has_non_ws :
    ∀ (n : Nat) (cs : List Char), (∃ x ∈ cs, isWs x = false) →
      ∃ x ∈ collapseWs2Fuel n cs, isWs x = false := by
  intro n
  induction n with
  | zero =>
    intro cs h
    rcases cs with _ | ⟨c, cs⟩
    · exact h
    · exact h
  | succ n ih =>
    intro cs h
    rcases cs with _ | ⟨c, cs⟩
    · exact h
    · by_cases hc : isWs c
      · rcases cs with _ | ⟨d, cs'⟩
        · rcases h with ⟨x, hx, hpx⟩
          rcases List.mem_cons.mp hx with rfl | hm
          · rw [hpx] at hc; cases hc
          · cases hm
        · by_cases hd : isWs d
          · simp only [collapseWs2Fuel, if_pos hc, if_pos hd]
            have hrest : ∃ x ∈ (c :: d :: cs').dropWhile isWs,
                isWs x = false := by
              rcases h with ⟨x, hx, hpx⟩
              have hxmem : x ∈ (c :: d :: cs').dropWhile isWs := by
                have hne : (c :: d :: cs').dropWhile isWs ≠ [] :=
                  dropWhile_ne_nil_of_mem _ ⟨x, hx, hpx⟩
                -- x is non-ws so it is not in the dropped ws prefix
                have hsplit := List.takeWhile_append_dropWhile
                  isWs (c :: d :: cs')
                rcases List.mem_append.mp (hsplit ▸ hx) with hmem | hmem
                · have := List.mem_takeWhile_imp hmem
                  rw [hpx] at this; cases this
                · exact hmem
              exact ⟨x, hxmem, hpx⟩
            rcases ih _ hrest with ⟨x, hx, hpx⟩
            exact ⟨x, List.mem_cons_of_mem _ hx, hpx⟩
          · simp only [collapseWs2Fuel, if_pos hc, if_neg hd]
            have hrest : ∃ x ∈ d :: cs', isWs x = false :=
              ⟨d, by simp, Bool.of_not_eq_true hd⟩
            rcases ih _ hrest with ⟨x, hx, hpx⟩
            exact ⟨x, List.mem_cons_of_mem _ hx, hpx⟩
      · rcases cs with _ | ⟨d, cs'⟩
        · exact ⟨c, by simp [collapseWs2Fuel, hc], Bool.of_not_eq_true hc⟩
        · simp only [collapseWs2Fuel, if_neg hc]
          exact ⟨c, by simp, Bool.of_not_eq_true hc⟩

/-- `subDashSpace` is the identity on whitespace-free text. -/
theorem subDashSpaceFuel_no_ws :
    ∀ (n : Nat) (cs : List Char), (∀ x ∈ cs, isWs x = false) →
      subDashSpaceFuel n cs = cs := by
  intro n
  induction n with
  | zero => intro cs _; cases cs <;> rfl
  | succ n ih =>
    intro cs h
    rcases cs with _ | ⟨c, cs⟩
    · rfl
    · have hcs : ∀ x ∈ cs, isWs x = false :=
        fun x hx => h x (List.mem_cons_of_mem _ hx)
      by_cases hc : c = '-'
      · subst hc
        simp only [subDashSpaceFuel, if_pos rfl]
        rw [dropWhile_eq_self_of cs hcs, ih cs hcs]
        simp
      · simp only [subDashSpaceFuel, if_neg hc]
        rw [ih cs hcs]

/-! ### Amount and date grammar lemmas -/

theorem grouped_removeDots : ∀ rs : List Char, groupedRest rs = true →
    ∃ gs d1 d2, removeDots rs = gs ++ [',', d1, d2]
      ∧ (∀ x ∈ gs, x.isDigit = true) ∧ d1.isDigit = true
      ∧ d2.isDigit = true := by
  intro rs
  induction rs using groupedRest.induct with
  | case1 d1 d2 =>
    intro h
    rw [show groupedRest [',', d1, d2] = (d1.isDigit && d2.isDigit) from rfl,
      Bool.and_eq_true] at h
    have hd1 : d1 ≠ '.' := by
      intro he; rw [he] at h; exact absurd h.1 (by decide)
    have hd2 : d2 ≠ '.' := by
      intro he; rw [he] at h; exact absurd h.2 (by decide)
    refine ⟨[], d1, d2, ?_, by simp, h.1, h.2⟩
    simp [removeDots, hd1, hd2]
  | case2 d1 d2 d3 rest ih =>
    intro h
    rw [show groupedRest ('.' :: d1 :: d2 :: d3 :: rest)
        = (d1.isDigit && d2.isDigit && d3.isDigit && groupedRest rest)
      from rfl] at h
    simp only [Bool.and_eq_true] at h
    obtain ⟨⟨⟨ha, hb⟩, hc⟩, hrest⟩ := h
    rcases ih hrest with ⟨gs, e1, e2, hrw, hgs, h1, h2⟩
    have hd1 : d1 ≠ '.' := by
      intro he; rw [he] at ha; exact absurd ha (by decide)
    have hd2 : d2 ≠ '.' := by
      intro he; rw [he] at hb; exact absurd hb (by decide)
    have hd3 : d3 ≠ '.' := by
      intro he; rw [he] at hc; exact absurd hc (by decide)
    refine ⟨d1 :: d2 :: d3 :: gs, e1, e2, ?_, ?_, h1, h2⟩
    · have hstep : removeDots ('.' :: d1 :: d2 :: d3 :: rest)
          = d1 :: d2 :: d3 :: removeDots rest := by
        simp [removeDots, hd1, hd2, hd3]
      rw [hstep, hrw]
      simp
    · intro x hx
      rcases List.mem_cons.mp hx with rfl | hx
      · exact ha
      · rcases List.mem_cons.mp hx with rfl | hx
        · exact hb
        · rcases List.mem_cons.mp hx with rfl | hx
          · exact hc
          · exact hgs x hx
  | case3 t h1 h2 =>
    intro h
    rw [groupedRest.eq_def] at h
    split at h
    · next d1 d2 => exact absurd rfl (fun he => h1 d1 d2 he)
    · next d1 d2 d3 rest => exact absurd rfl (fun he => h2 d1 d2 d3 rest he)
    · exact absurd h (by simp)

theorem takeWhile_digits_all (cs : List Char) :
    ∀ x ∈ cs.takeWhile Char.isDigit, x.isDigit = true := by
  intro x hx
  exact List.mem_takeWhile_imp hx

/-- The amount body of one of the two accepted grammars, with its dots
removed, is sign-free digits followed by a comma and two digits. -/
theorem amount_body_shape (body : List Char)
    (h : (matchGroupedBody body || matchPlainBody body) = true) :
    ∃ ds d1 d2, removeDots body = ds ++ [',', d1, d2] ∧ ds ≠ []
      ∧ (∀ x ∈ ds, x.isDigit = true) ∧ d1.isDigit = true
      ∧ d2.isDigit = true := by
  have h' : matchGroupedBody body = true ∨ matchPlainBody body = true := by
    simpa using h
  rcases h' with hg | hp
  · unfold matchGroupedBody at hg
    simp only [Bool.and_eq_true, decide_eq_true_eq] at hg
    obtain ⟨⟨h1, _⟩, hrest⟩ := hg
    rcases grouped_removeDots _ hrest with ⟨gs, d1, d2, hrw, hgs, hd1, hd2⟩
    have hsplit := List.takeWhile_append_dropWhile Char.isDigit body
    have hds := takeWhile_digits_all body
    refine ⟨body.takeWhile Char.isDigit ++ gs, d1, d2, ?_, ?_, ?_, hd1, hd2⟩
    · conv_lhs => rw [← hsplit]
      rw [removeDots_append, filter_eq_self_of_digits hds, hrw]
      simp
    · intro he
      rcases List.append_eq_nil.mp he with ⟨he1, -⟩
      rw [he1] at h1
      simp at h1
    · intro x hx
      rcases List.mem_append.mp hx with hx | hx
      · exact hds x hx
      · exact hgs x hx
  · unfold matchPlainBody at hp
    rw [Bool.and_eq_true] at hp
    obtain ⟨h1, h2⟩ := hp
    have hds := takeWhile_digits_all body
    split at h2
    · next d1 d2 heq =>
      rw [Bool.and_eq_true] at h2
      have hsplit := List.takeWhile_append_dropWhile Char.isDigit body
      refine ⟨body.takeWhile Char.isDigit, d1, d2, ?_, ?_, hds, h2.1, h2.2⟩
      · conv_lhs => rw [← hsplit]
        rw [heq, removeDots_append, filter_eq_self_of_digits hds]
        have hd1 : d1 ≠ '.' := isDigit_ne_dot h2.1
        have hd2 : d2 ≠ '.' := isDigit_ne_dot h2.2
        simp [removeDots, hd1, hd2]
      · intro he
        rw [he] at h1
        simp at h1
    · exact absurd h2 (by simp)

/-- Structure of a successful `_normalize_amount_text`: an optional minus
sign, a non-empty digit run, a comma, two digits — and no whitespace. -/
theorem normalize_amount_text_shape (v t : String)
    (h : normalize_amount_text v = some t) :
    ∃ (neg : Bool) (ds : List Char) (d1 d2 : Char),
      t.data = (if neg then ['-'] else []) ++ ds ++ [',', d1, d2]
      ∧ ds ≠ [] ∧ (∀ x ∈ ds, x.isDigit = true) ∧ d1.isDigit = true
      ∧ d2.isDigit = true ∧ (∀ x ∈ t.data, isWs x = false) := by
  have hws : ∀ x ∈ stripWsL v.data, isWs x = false := stripWsL_no_ws v.data
  simp only [normalize_amount_text] at h
  split at h
  · exact absurd h (by simp)
  · next hne =>
    split at h
    · next hcond =>
      have ht : t.data = removeDots (stripWsL v.data) := by
        have := Option.some.inj h
        rw [← this]
      have htw : ∀ x ∈ t.data, isWs x = false := by
        intro x hx
        rw [ht] at hx
        exact hws x (List.mem_of_mem_filter hx)
      rcases hcl : stripWsL v.data with _ | ⟨c, r⟩
      · exact absurd hcl hne
      · rw [hcl] at ht hcond
        by_cases hc : c = '-'
        · subst hc
          have hbody : (match ('-' :: r : List Char) with
              | '-' :: r => r
              | r => r) = r := rfl
          rw [hbody] at hcond
          rcases amount_body_shape r hcond with ⟨ds, d1, d2, hrw, hne2, hds, hd1, hd2⟩
          refine ⟨true, ds, d1, d2, ?_, hne2, hds, hd1, hd2, htw⟩
          rw [ht]
          have : removeDots ('-' :: r) = '-' :: removeDots r := by
            simp [removeDots]
          rw [this, hrw]
          simp
        · have hbody : (match (c :: r : List Char) with
              | '-' :: r => r
              | r => r) = c :: r := by
            split
            · next heq =>
              injection heq with h1 h2
              cases h1
              exact absurd rfl hc
            · rfl
          rw [hbody] at hcond
          rcases amount_body_shape (c :: r) hcond
            with ⟨ds, d1, d2, hrw, hne2, hds, hd1, hd2⟩
          refine ⟨false, ds, d1, d2, ?_, hne2, hds, hd1, hd2, htw⟩
          rw [ht, hrw]
          simp
    · exact absurd h (by simp)

/-- Decomposition of a successful `dateParts`. -/
theorem dateParts_some {cs d mo : List Char}
    (h : dateParts cs = some (d, mo)) :
    cs = d ++ '/' :: mo ∧ d ≠ [] ∧ mo ≠ []
      ∧ (∀ x ∈ d, x.isDigit = true) ∧ (∀ x ∈ mo, x.isDigit = true) := by
  simp only [dateParts] at h
  split at h
  · next hlen =>
    split at h
    · next rest heq =>
      split at h
      · next hcond =>
        obtain ⟨hd, hmo⟩ := Prod.mk.inj (Option.some.inj h)
        obtain ⟨h1, h2, h3⟩ := hcond
        have hsplit := List.takeWhile_append_dropWhile Char.isDigit cs
        have hsplit2 := List.takeWhile_append_dropWhile Char.isDigit rest
        rw [h3] at hsplit2
        have htw : List.takeWhile Char.isDigit rest = rest := by
          conv_rhs => rw [← hsplit2]
          simp
        have hrest : rest = mo := by rw [← hmo, htw]
        refine ⟨?_, ?_, ?_, ?_, ?_⟩
        · rw [← hsplit, heq, hd, hrest]
        · intro he
          have h0 : List.takeWhile Char.isDigit cs = [] := hd.trans he
          rw [h0] at hlen
          simp at hlen
        · intro he
          have h0 : List.takeWhile Char.isDigit rest = [] := hmo.trans he
          rw [h0] at h1
          simp at h1
        · rw [← hd]; exact takeWhile_digits_all cs
        · rw [← hmo]; exact takeWhile_digits_all rest
      · exact absurd h (by simp)
    · exact absurd h (by simp)
  · exact absurd h (by simp)

/-- Building `dateParts` from components. -/
theorem dateParts_build (d mo : List Char)
    (hd1 : 1 ≤ d.length) (hd2 : d.length ≤ 2)
    (hm1 : 1 ≤ mo.length) (hm2 : mo.length ≤ 2)
    (hdd : ∀ x ∈ d, x.isDigit = true) (hmd : ∀ x ∈ mo, x.isDigit = true) :
    dateParts (d ++ '/' :: mo) = some (d, mo) := by
  have ht : (d ++ '/' :: mo).takeWhile Char.isDigit = d :=
    takeWhile_all_append d '/' mo hdd (by decide)
  have hp : (d ++ '/' :: mo).dropWhile Char.isDigit = '/' :: mo :=
    dropWhile_all_append d '/' mo hdd (by decide)
  simp only [dateParts, ht, hp]
  rw [if_pos ⟨hd1, hd2⟩]
  rw [takeWhile_all mo hmd, dropWhile_all mo hmd]
  rw [if_pos ⟨hm1, hm2, rfl⟩]

/-! ### `match_to_csv` on reconstructed match texts -/

theorem ws_free_no_nl {cs : List Char}
    (h : ∀ x ∈ cs, isWs x = false) : '\n' ∉ cs := by
  intro hm
  have := h _ hm
  exact absurd this (by decide)

theorem commaToDot_no_ws {cs : List Char}
    (h : ∀ x ∈ cs, isWs x = false) :
    ∀ x ∈ commaToDot cs, isWs x = false := by
  intro x hx
  rcases List.mem_map.mp hx with ⟨y, hy, hxy⟩
  by_cases hyc : y = ','
  · rw [← hxy, if_pos hyc]; decide
  · rw [← hxy, if_neg hyc]; exact h y hy

theorem commaToDot_dash (ys : List Char) :
    commaToDot ('-' :: ys) = '-' :: commaToDot ys := by
  simp [commaToDot]

theorem commaToDot_cons_dot (ys : List Char) :
    commaToDot ('.' :: ys) = '.' :: commaToDot ys := by
  simp [commaToDot]

/-- `","→"."` on a normalized amount: the single comma becomes the
decimal point. -/
theorem commaToDot_amount (neg : Bool) (ds : List Char) (d1 d2 : Char)
    (hds : ∀ x ∈ ds, x.isDigit = true) (hd1 : d1.isDigit = true)
    (hd2 : d2.isDigit = true) :
    commaToDot ((if neg then ['-'] else []) ++ ds ++ [',', d1, d2])
      = (if neg then ['-'] else []) ++ ds ++ ['.', d1, d2] := by
  have htail : commaToDot [',', d1, d2] = ['.', d1, d2] := by
    rw [show ([',', d1, d2] : List Char) = ',' :: [d1, d2] from rfl,
      commaToDot_cons_comma, commaToDot_digits (by
        intro x hx
        rcases List.mem_cons.mp hx with rfl | hx
        · exact hd1
        · rcases List.mem_singleton.mp hx with rfl
          exact hd2)]
  rw [commaToDot_append, commaToDot_append, commaToDot_digits hds, htail]
  rcases neg with _ | _
  · simp [commaToDot]
  · simp [commaToDot]

theorem amount_shape_no_ws (neg : Bool) (ds : List Char) (d1 d2 : Char)
    (hds : ∀ x ∈ ds, x.isDigit = true) (hd1 : d1.isDigit = true)
    (hd2 : d2.isDigit = true) :
    ∀ x ∈ (if neg then ['-'] else []) ++ ds ++ ['.', d1, d2],
      isWs x = false := by
  intro x hx
  rcases List.mem_append.mp hx with hx | hx
  · rcases List.mem_append.mp hx with hx | hx
    · rcases neg with _ | _
      · simp at hx
      · rcases List.mem_singleton.mp hx with rfl; decide
    · exact isDigit_not_ws (hds x hx)
  · rcases List.mem_cons.mp hx with rfl | hx
    · decide
    · rcases List.mem_cons.mp hx with rfl | hx
      · exact isDigit_not_ws hd1
      · rcases List.mem_singleton.mp hx with rfl
        exact isDigit_not_ws hd2

/-- Four-line variant of `pySplitlines_three`. -/
theorem pySplitlines_four (x y z w : String)
    (hx : '\n' ∉ x.data) (hy : '\n' ∉ y.data) (hz : '\n' ∉ z.data)
    (hw : '\n' ∉ w.data) (hwne : w.data ≠ []) :
    pySplitlines (x ++ "\n" ++ y ++ "\n" ++ z ++ "\n" ++ w) = [x, y, z, w] := by
  have hdata : (x ++ "\n" ++ y ++ "\n" ++ z ++ "\n" ++ w).data
      = x.data ++ '\n' :: (y.data ++ '\n' :: (z.data ++ '\n' :: w.data)) := by
    simp [String.data_append]
  rw [pySplitlines, hdata]
  have hne : x.data ++ '\n' :: (y.data ++ '\n' :: (z.data ++ '\n' :: w.data))
      ≠ [] := by simp
  rw [if_neg hne]
  have hsplit : splitCharAll '\n'
      (x.data ++ '\n' :: (y.data ++ '\n' :: (z.data ++ '\n' :: w.data)))
      = [x.data, y.data, z.data, w.data] := by
    rw [splitCharAll_append x.data _ hx, splitCharAll_append y.data _ hy,
      splitCharAll_append z.data _ hz, splitCharAll_sep_free w.data hw]
  have hwlast : ∀ u : List Char, (u ++ w.data).getLast? ≠ some '\n' := by
    intro u
    rw [getLast?_append_right _ _ hwne]
    intro he
    exact hw (getLast?_mem w.data '\n' he)
  have hlastne : (x.data ++ '\n' :: (y.data ++ '\n'
      :: (z.data ++ '\n' :: w.data))).getLast? ≠ some '\n' := by
    rw [show x.data ++ '\n' :: (y.data ++ '\n' :: (z.data ++ '\n' :: w.data))
        = (x.data ++ '\n' :: y.data ++ '\n' :: z.data ++ ['\n']) ++ w.data
      from by simp]
    exact hwlast _
  have hlast2 : ∀ v : List Char, v ++ w.data
      = x.data ++ '\n' :: (y.data ++ '\n' :: (z.data ++ '\n' :: w.data))
      → True := fun _ _ => trivial
  have h2 : (('\n' :: (y.data ++ '\n' :: (z.data ++ '\n'
      :: w.data))) : List Char).getLast? ≠ some '\n' := by
    rw [show ('\n' :: (y.data ++ '\n' :: (z.data ++ '\n' :: w.data))
        : List Char)
        = ('\n' :: y.data ++ '\n' :: z.data ++ ['\n']) ++ w.data from by simp]
    exact hwlast _
  simp [hsplit, hlastne, h2]

/-- `match_to_csv` on a three-line match text assembled from a date line,
a description and a normalized amount. -/
theorem match_to_csv_structured (dm desc amt year : String)
    (d mo : List Char) (neg : Bool) (ds : List Char) (d1 d2 : Char)
    (hdm : dateParts dm.data = some (d, mo))
    (hdmws : ∀ x ∈ dm.data, isWs x = false)
    (hdescnl : '\n' ∉ desc.data)
    (hamt : amt.data = (if neg then ['-'] else []) ++ ds ++ [',', d1, d2])
    (hamtws : ∀ x ∈ amt.data, isWs x = false)
    (hds : ∀ x ∈ ds, x.isDigit = true) (hd1 : d1.isDigit = true)
    (hd2 : d2.isDigit = true) :
    match_to_csv (dm ++ "\n" ++ desc ++ "\n" ++ amt) year
      = (⟨d⟩ : String) ++ "/" ++ (⟨mo⟩ : String) ++ "/" ++ year ++ ","
        ++ pyStrip (collapseWs2 desc) ++ ","
        ++ (⟨(if neg then ['-'] else []) ++ ds ++ ['.', d1, d2]⟩ : String) := by
  have hdmnl : '\n' ∉ dm.data := ws_free_no_nl hdmws
  have hamtnl : '\n' ∉ amt.data := ws_free_no_nl hamtws
  have hamtne : amt.data ≠ [] := by rw [hamt]; rcases neg with _ | _ <;> simp
  have h3 := pySplitlines_three dm desc amt hdmnl hdescnl hamtnl hamtne
  have hdp : dateParts (stripWsL dm.data) = some (d, mo) := by
    rw [stripWsL_eq_self hdmws]; exact hdm
  have hamount : subDashSpace (commaToDot (stripWsL amt.data))
      = (if neg then ['-'] else []) ++ ds ++ ['.', d1, d2] := by
    rw [stripWsL_eq_self hamtws, hamt,
      commaToDot_amount neg ds d1 d2 hds hd1 hd2]
    exact subDashSpaceFuel_no_ws _ _
      (amount_shape_no_ws neg ds d1 d2 hds hd1 hd2)
  simp only [match_to_csv, h3]
  have hlen3 : ([dm, desc, amt] : List String).length ≥ 3 := by simp
  rw [if_pos hlen3]
  simp only [List.getD_cons_zero, List.getD_cons_succ]
  simp only [hdp]
  have hni : ¬(([dm, desc, amt] : List String).length ≥ 4
      ∧ isDateText (stripWs amt).data = true) := by
    intro hcon
    have h4 := hcon.1
    simp at h4
  simp only [List.getD_cons_zero, List.getD_cons_succ, if_neg hni]
  rw [hamount]

/-- `match_to_csv` on a four-line match text with an installment tag:
the tag is folded into the description, the amount comes from the fourth
line. -/
theorem match_to_csv_structured4 (dm desc inst amt year : String)
    (d mo : List Char) (neg : Bool) (ds : List Char) (d1 d2 : Char)
    (hdm : dateParts dm.data = some (d, mo))
    (hdmws : ∀ x ∈ dm.data, isWs x = false)
    (hdescnl : '\n' ∉ desc.data)
    (hinstws : ∀ x ∈ inst.data, isWs x = false)
    (hinstdate : isDateText inst.data = true)
    (hamt : amt.data = (if neg then ['-'] else []) ++ ds ++ [',', d1, d2])
    (hamtws : ∀ x ∈ amt.data, isWs x = false)
    (hds : ∀ x ∈ ds, x.isDigit = true) (hd1 : d1.isDigit = true)
    (hd2 : d2.isDigit = true) :
    match_to_csv (dm ++ "\n" ++ desc ++ "\n" ++ inst ++ "\n" ++ amt) year
      = (⟨d⟩ : String) ++ "/" ++ (⟨mo⟩ : String) ++ "/" ++ year ++ ","
        ++ (pyStrip (collapseWs2 desc) ++ " " ++ inst) ++ ","
        ++ (⟨(if neg then ['-'] else []) ++ ds ++ ['.', d1, d2]⟩ : String) := by
  have hdmnl : '\n' ∉ dm.data := ws_free_no_nl hdmws
  have hinstnl : '\n' ∉ inst.data := ws_free_no_nl hinstws
  have hamtnl : '\n' ∉ amt.data := ws_free_no_nl hamtws
  have hamtne : amt.data ≠ [] := by rw [hamt]; rcases neg with _ | _ <;> simp
  have h4 := pySplitlines_four dm desc inst amt hdmnl hdescnl hinstnl hamtnl
    hamtne
  have hdp : dateParts (stripWsL dm.data) = some (d, mo) := by
    rw [stripWsL_eq_self hdmws]; exact hdm
  have hin : stripWs inst = inst := by
    show (⟨stripWsL inst.data⟩ : String) = inst
    rw [stripWsL_eq_self hinstws]
  have hamount : subDashSpace (commaToDot (stripWsL amt.data))
      = (if neg then ['-'] else []) ++ ds ++ ['.', d1, d2] := by
    rw [stripWsL_eq_self hamtws, hamt,
      commaToDot_amount neg ds d1 d2 hds hd1 hd2]
    exact subDashSpaceFuel_no_ws _ _
      (amount_shape_no_ws neg ds d1 d2 hds hd1 hd2)
  simp only [match_to_csv, h4]
  have hlen3 : ([dm, desc, inst, amt] : List String).length ≥ 3 := by simp
  rw [if_pos hlen3]
  simp only [List.getD_cons_zero, List.getD_cons_succ]
  simp only [hdp]
  have hyi : (([dm, desc, inst, amt] : List String).length ≥ 4
      ∧ isDateText (stripWs inst).data = true) := by
    refine ⟨by simp, ?_⟩
    rw [hin]
    exact hinstdate
  simp only [List.getD_cons_zero, List.getD_cons_succ, if_pos hyi]
  rw [hamount, hin]

/-- String extensionality via the underlying character list. -/
theorem stringDataEq {s t : String} (h : s.data = t.data) : s = t := by
  cases s
  cases t
  simp only at h
  rw [h]

theorem string_ne_empty_iff (s : String) : s ≠ "" ↔ s.data ≠ [] := by
  constructor
  · intro h he
    exact h (stringDataEq (by simpa using he))
  · intro h he
    rw [he] at h
    exact h rfl

/-- Every character of a space-join comes from an entry or is the
joining space. -/
theorem joinSpace_chars : ∀ (xs : List String) (c : Char),
    c ∈ (joinSpace xs).data → c = ' ' ∨ ∃ y ∈ xs, c ∈ y.data := by
  intro xs
  induction xs with
  | nil => intro c hc; cases hc
  | cons x xs ih =>
    intro c hc
    rcases xs with _ | ⟨z, zs⟩
    · exact Or.inr ⟨x, by simp, hc⟩
    · rw [show joinSpace (x :: z :: zs) = x ++ " " ++ joinSpace (z :: zs)
        from rfl] at hc
      simp only [String.data_append] at hc
      rcases List.mem_append.mp hc with hc | hc
      · rcases List.mem_append.mp hc with hc | hc
        · exact Or.inr ⟨x, by simp, hc⟩
        · rcases List.mem_singleton.mp (by simpa using hc) with rfl
          exact Or.inl rfl
      · rcases ih c hc with h | ⟨y, hy, hcy⟩
        · exact Or.inl h
        · exact Or.inr ⟨y, List.mem_cons_of_mem _ hy, hcy⟩

/-- A space-join starts with its first entry. -/
theorem joinSpace_head (x : String) (xs : List String) :
    ∃ t, (joinSpace (x :: xs)).data = x.data ++ t := by
  rcases xs with _ | ⟨z, zs⟩
  · exact ⟨[], by simp [joinSpace]⟩
  · refine ⟨' ' :: (joinSpace (z :: zs)).data, ?_⟩
    rw [show joinSpace (x :: z :: zs) = x ++ " " ++ joinSpace (z :: zs)
      from rfl]
    simp [String.data_append]

/-- `joinComma.data`. -/
theorem joinComma_data : ∀ (x : String) (xs : List String),
    (joinComma (x :: xs)).data
      = x.data ++ (if xs = [] then [] else ',' :: (joinComma xs).data) := by
  intro x xs
  rcases xs with _ | ⟨z, zs⟩
  · simp [joinComma]
  · rw [show joinComma (x :: z :: zs) = x ++ "," ++ joinComma (z :: zs)
      from rfl]
    simp [String.data_append]

/-- Decomposition of `mkRow` when `match_to_csv` produced a comma-free
first field followed by at least one more comma: the row is the index,
the date field, the payment field and the remaining text, comma-joined.
-/
theorem mkRow_decomp (index : Nat) (mtext year : String) (pd : Option String)
    (dp rest : List Char)
    (hmc : (match_to_csv mtext year).data = dp ++ ',' :: rest)
    (hdpc : ',' ∉ dp) (hrc : ',' ∈ rest) :
    (mkRow index mtext year pd).data
      = (Nat.repr index).data
        ++ ',' :: (dp ++ ',' :: ((pd.getD "").data ++ ',' :: rest)) := by
  rcases splitMaxAux_one ([] : List Char) hrc with ⟨p1, p2, hsplit, hjoin⟩
  simp only [List.reverse_nil, List.nil_append] at hjoin
  have hparts : pySplitMax (match_to_csv mtext year) ',' 2
      = [⟨dp⟩, ⟨p1⟩, ⟨p2⟩] := by
    unfold pySplitMax
    rw [hmc, splitMaxAux_prefix dp hdpc 1 rest [], hsplit]
    simp
  simp only [mkRow, hparts]
  simp only [List.getD_cons_zero, List.getD_cons_succ]
  simp only [String.data_append]
  rw [← hjoin]
  simp

/-- No piece produced by `splitCharAll` contains the separator. -/
theorem splitCharAll_no_sep {sep : Char} :
    ∀ (cs : List Char) (p : List Char), p ∈ splitCharAll sep cs →
      sep ∉ p := by
  intro cs
  induction cs with
  | nil =>
    intro p hp
    simp only [splitCharAll, List.mem_singleton] at hp
    subst hp
    simp
  | cons c cs ih =>
    intro p hp
    rw [splitCharAll_cons] at hp
    by_cases hc : c = sep
    · rw [if_pos hc] at hp
      rcases List.mem_cons.mp hp with rfl | hp2
      · simp
      · exact ih p hp2
    · rw [if_neg hc] at hp
      split at hp
      · next heq => exact absurd heq (splitCharAll_ne_nil cs)
      · next q qs heq =>
        rcases List.mem_cons.mp hp with rfl | hp2
        · intro hm
          rcases List.mem_cons.mp hm with he | hm2
          · exact hc he.symm
          · exact ih q (heq ▸ List.mem_cons_self q qs) hm2
        · exact ih p (heq ▸ List.mem_cons_of_mem q hp2)

/-- Lines produced by `splitlines` contain no newline. -/
theorem pySplitlines_no_nl (s : String) :
    ∀ l ∈ pySplitlines s, '\n' ∉ l.data := by
  intro l hl
  simp only [pySplitlines] at hl
  split at hl
  · cases hl
  · rcases List.mem_map.mp hl with ⟨p, hp, rfl⟩
    split at hp
    · exact splitCharAll_no_sep s.data p
        (List.dropLast_prefix _ |>.subset hp)
    · exact splitCharAll_no_sep s.data p hp

theorem isDigit_ne_nl {c : Char} (h : c.isDigit = true) : c ≠ '\n' := by
  intro he; rw [he] at h; exact absurd h (by decide)

/-- `fixSpacedDateLine` introduces no newline. -/
theorem fixSpacedDateLine_no_nl {s : String} (h : '\n' ∉ s.data) :
    '\n' ∉ (fixSpacedDateLine s).data := by
  simp only [fixSpacedDateLine]
  split
  · split
    · next m1 rest heq =>
      split
      · next hg =>
        split
        · next m2 heq2 =>
          split
          · next hdig2 =>
            intro hm
            rcases List.mem_append.mp hm with hm | hm
            · exact isDigit_ne_nl
                (takeWhile_digits_all s.data _ hm) rfl
            · rcases List.mem_cons.mp hm with he | hm2
              · exact absurd he.symm (by decide)
              · rcases List.mem_cons.mp hm2 with he | hm3
                · exact isDigit_ne_nl hg.1 he.symm
                · rcases List.mem_singleton.mp hm3 with he
                  exact isDigit_ne_nl hdig2 (by rw [he])
          · exact h
        · exact h
      · exact h
    · exact h
  · exact h

/-- The well-formedness invariant of an emitted statement row: index,
`DD/MM/year` date, payment-due field, a non-empty description, and an
amount of the form optional minus, digits, dot, two digits, optionally
followed by `extra` (the enhanced parser's category/location suffix). -/
def rowWellFormed (year extra : String) (pd : Option String)
    (row : String) : Prop :=
  ∃ (index : Nat) (d mo : List Char) (descS : String) (neg : Bool)
    (ds : List Char) (d1 d2 : Char),
    row = Nat.repr index ++ "," ++ (⟨d⟩ : String) ++ "/" ++ (⟨mo⟩ : String)
        ++ "/" ++ year ++ "," ++ pd.getD "" ++ "," ++ descS ++ ","
        ++ (⟨(if neg then ['-'] else []) ++ ds ++ ['.', d1, d2]⟩ : String)
        ++ extra
      ∧ d ≠ [] ∧ mo ≠ [] ∧ (∀ x ∈ d, x.isDigit = true)
      ∧ (∀ x ∈ mo, x.isDigit = true)
      ∧ descS ≠ "" ∧ ds ≠ [] ∧ (∀ x ∈ ds, x.isDigit = true)
      ∧ d1.isDigit = true ∧ d2.isDigit = true

theorem scanEntry_cons (l : String) (rest acc : List String) :
    scanEntry (l :: rest) acc
      = match normalize_amount_text (pyStrip l) with
        | some amt => some (acc, none, amt, rest)
        | none =>
          if isDateLine (pyStrip l) then
            match rest with
            | r :: rest2 =>
              match normalize_amount_text r with
              | some amt =>
                some (acc, some (stripWs (pyStrip l)), amt, rest2)
              | none => scanEntry rest (acc ++ [pyStrip l])
            | [] => scanEntry rest (acc ++ [pyStrip l])
          else scanEntry rest (acc ++ [pyStrip l]) := rfl

/-- Facts about a successful entry scan: every collected description line
is an inherited one or the strip of an input line, the amount passed the
amount grammar, any installment tag is whitespace-free, and the leftover
lines are input lines. -/
theorem scanEntry_facts :
    ∀ (ls acc descs : List String) (inst : Option String) (amt : String)
      (rest2 : List String),
      scanEntry ls acc = some (descs, inst, amt, rest2) →
      (∀ d ∈ descs, d ∈ acc ∨ ∃ l ∈ ls, d = pyStrip l)
      ∧ (∃ v, normalize_amount_text v = some amt)
      ∧ (∀ i, inst = some i → ∀ x ∈ i.data, isWs x = false)
      ∧ (∀ r ∈ rest2, r ∈ ls) := by
  intro ls
  induction ls with
  | nil =>
    intro acc descs inst amt rest2 h
    exact absurd h (by simp [scanEntry])
  | cons l rest ih =>
    intro acc descs inst amt rest2 h
    rw [scanEntry_cons] at h
    split at h
    · next amt' heq =>
      simp only [Option.some.injEq, Prod.mk.injEq] at h
      obtain ⟨h1, h2, h3, h4⟩ := h
      subst h1; subst h2; subst h3; subst h4
      refine ⟨fun d hd => Or.inl hd, ⟨pyStrip l, heq⟩, ?_, ?_⟩
      · intro i hi; cases hi
      · intro r hr; exact List.mem_cons_of_mem _ hr
    · next heq =>
      split at h
      · next hdl =>
        split at h
        · next r rrest =>
          split at h
          · next amt' heq3 =>
            simp only [Option.some.injEq, Prod.mk.injEq] at h
            obtain ⟨h1, h2, h3, h4⟩ := h
            subst h1; subst h3; subst h4
            refine ⟨fun d hd => Or.inl hd, ⟨r, heq3⟩, ?_, ?_⟩
            · intro i hi
              rw [← h2] at hi
              cases hi
              exact stripWsL_no_ws _
            · intro x hx
              exact List.mem_cons_of_mem _ (List.mem_cons_of_mem _ hx)
          · next heq3 =>
            obtain ⟨f1, f2, f3, f4⟩ := ih (acc ++ [pyStrip l]) descs inst
              amt rest2 h
            refine ⟨?_, f2, f3, fun x hx => List.mem_cons_of_mem _ (f4 x hx)⟩
            intro d hd
            rcases f1 d hd with hmem | ⟨l', hl', he⟩
            · rcases List.mem_append.mp hmem with hmem | hmem
              · exact Or.inl hmem
              · rcases List.mem_singleton.mp hmem with rfl
                exact Or.inr ⟨l, List.mem_cons_self l _, rfl⟩
            · exact Or.inr ⟨l', List.mem_cons_of_mem _ hl', he⟩
        · exact absurd h (by simp [scanEntry])
      · next hdl =>
        obtain ⟨f1, f2, f3, f4⟩ := ih (acc ++ [pyStrip l]) descs inst
          amt rest2 h
        refine ⟨?_, f2, f3, fun x hx => List.mem_cons_of_mem _ (f4 x hx)⟩
        intro d hd
        rcases f1 d hd with hmem | ⟨l', hl', he⟩
        · rcases List.mem_append.mp hmem with hmem | hmem
          · exact Or.inl hmem
          · rcases List.mem_singleton.mp hmem with rfl
            exact Or.inr ⟨l, List.mem_cons_self l _, rfl⟩
        · exact Or.inr ⟨l', List.mem_cons_of_mem _ hl', he⟩

/-- Shape of the row built by the basic parser for one completed entry. -/
theorem basicRow_shape (l d0 : String) (drest : List String)
    (amt year : String) (pd : Option String) (index : Nat)
    (hdate : isDateLine l = true)
    (hnl : ∀ d ∈ d0 :: drest, '\n' ∉ d.data)
    (hd0 : ∃ x ∈ d0.data, isWs x = false)
    (hamt : ∃ v, normalize_amount_text v = some amt)
    (hyear : ',' ∉ year.data) :
    rowWellFormed year "" pd
      (mkRow index (stripWs l ++ "\n" ++ joinSpace (d0 :: drest) ++ "\n"
        ++ amt) year pd) := by
  obtain ⟨v, hv⟩ := hamt
  obtain ⟨neg, ds, d1, d2, hshape, hdsne, hdsdig, h1, h2, hamtws⟩ :=
    normalize_amount_text_shape v amt hv
  have hdt : (dateParts (stripWsL l.data)).isSome := hdate
  rcases hsome : dateParts (stripWsL l.data) with _ | ⟨d, mo⟩
  · rw [hsome] at hdt; cases hdt
  obtain ⟨hcs, hdne, hmone, hddig, hmodig⟩ := dateParts_some hsome
  have hdmws : ∀ x ∈ (stripWs l).data, isWs x = false := stripWsL_no_ws l.data
  have hdescnl : '\n' ∉ (joinSpace (d0 :: drest)).data := by
    intro hm
    rcases joinSpace_chars (d0 :: drest) '\n' hm with he | ⟨y, hy, hcy⟩
    · exact absurd he (by decide)
    · exact hnl y hy hcy
  have hmc := match_to_csv_structured (stripWs l) (joinSpace (d0 :: drest))
    amt year d mo neg ds d1 d2 hsome hdmws hdescnl hshape hamtws hdsdig h1 h2
  set descS := pyStrip (collapseWs2 (joinSpace (d0 :: drest))) with hdescS
  set amtS := (⟨(if neg then ['-'] else []) ++ ds ++ ['.', d1, d2]⟩ : String)
    with hamtS
  have hdata : (match_to_csv (stripWs l ++ "\n" ++ joinSpace (d0 :: drest)
      ++ "\n" ++ amt) year).data
      = (d ++ '/' :: (mo ++ '/' :: year.data))
        ++ ',' :: (descS.data ++ ',' :: amtS.data) := by
    rw [hmc]
    simp [String.data_append]
  have hdpfree : ',' ∉ d ++ '/' :: (mo ++ '/' :: year.data) := by
    intro hm
    rcases List.mem_append.mp hm with hm | hm
    · exact isDigit_ne_comma (hddig ',' hm) rfl
    · rcases List.mem_cons.mp hm with he | hm2
      · exact absurd he.symm (by decide)
      · rcases List.mem_append.mp hm2 with hm3 | hm3
        · exact isDigit_ne_comma (hmodig ',' hm3) rfl
        · rcases List.mem_cons.mp hm3 with he | hm4
          · exact absurd he.symm (by decide)
          · exact hyear hm4
  have hcr : ',' ∈ descS.data ++ ',' :: amtS.data :=
    List.mem_append_right _ (List.mem_cons_self _ _)
  have hrow := mkRow_decomp index _ year pd _ _ hdata hdpfree hcr
  refine ⟨index, d, mo, descS, neg, ds, d1, d2, ?_, hdne, hmone, hddig,
    hmodig, ?_, hdsne, hdsdig, h1, h2⟩
  · apply stringDataEq
    rw [hrow]
    simp [String.data_append]
  · rw [string_ne_empty_iff]
    apply pyStripL_ne_nil
    apply collapseWs2Fuel_has_non_ws
    obtain ⟨x, hx, hxw⟩ := hd0
    obtain ⟨t, ht⟩ := joinSpace_head d0 drest
    exact ⟨x, ht ▸ List.mem_append_left t hx, hxw⟩

theorem parseBasicGo_fst (fuel : Nat) (l : String) (rest : List String)
    (year : String) (pd : Option String) (index : Nat) :
    (parseBasicGo (fuel + 1) (l :: rest) year pd index).1
      = if isDateLine l then
          match scanEntry rest [] with
          | some (descs, inst, amt, rest2) =>
            if descs ≠ [] then
              mkRow index (stripWs l ++ "\n" ++ joinSpace (match inst with
                | some i => descs ++ [i]
                | none => descs) ++ "\n" ++ amt) year pd
                :: (parseBasicGo fuel rest2 year pd (index + 1)).1
            else (parseBasicGo fuel rest year pd index).1
          | none => (parseBasicGo fuel rest year pd index).1
        else (parseBasicGo fuel rest year pd index).1 := by
  show (if isDateLine l then
      match scanEntry rest [] with
      | some (descs, inst, amt, rest2) =>
        if descs ≠ [] then
          (mkRow index (stripWs l ++ "\n" ++ joinSpace (match inst with
            | some i => descs ++ [i]
            | none => descs) ++ "\n" ++ amt) year pd
            :: (parseBasicGo fuel rest2 year pd (index + 1)).1,
           (parseBasicGo fuel rest2 year pd (index + 1)).2)
        else parseBasicGo fuel rest year pd index
      | none => parseBasicGo fuel rest year pd index
    else parseBasicGo fuel rest year pd index).1 = _
  split
  · split
    · next descs inst amt rest2 =>
      split
      · rfl
      · rfl
    · rfl
  · rfl

/-- Row invariant of the basic parser loop. -/
theorem parseBasicGo_inv :
    ∀ (fuel : Nat) (ls : List String) (year : String) (pd : Option String)
      (index : Nat), ',' ∉ year.data →
      (∀ l ∈ ls, pyStrip l ≠ "" ∧ '\n' ∉ l.data) →
      ∀ row ∈ (parseBasicGo fuel ls year pd index).1,
        rowWellFormed year "" pd row := by
  intro fuel
  induction fuel with
  | zero =>
    intro ls year pd index hy hls row hrow
    rcases ls with _ | ⟨l, rest⟩ <;> simp [parseBasicGo] at hrow
  | succ n ih =>
    intro ls year pd index hy hls row hrow
    rcases ls with _ | ⟨l, rest⟩
    · simp [parseBasicGo] at hrow
    · rw [parseBasicGo_fst] at hrow
      have hrest : ∀ l' ∈ rest, pyStrip l' ≠ "" ∧ '\n' ∉ l'.data :=
        fun l' hl' => hls l' (List.mem_cons_of_mem _ hl')
      split at hrow
      · next hdl =>
        split at hrow
        · next descs inst amt rest2 heq =>
          split at hrow
          · next hne =>
            obtain ⟨hdfacts, hamt, hinstf, hsub⟩ :=
              scanEntry_facts rest [] descs inst amt rest2 heq
            rcases List.mem_cons.mp hrow with rfl | hrow2
            · rcases hde : descs with _ | ⟨d0, dr⟩
              · exact absurd hde hne
              subst hde
              have hdprop : ∀ d ∈ d0 :: dr,
                  ('\n' ∉ d.data) ∧ ∃ x ∈ d.data, isWs x = false := by
                intro d hd
                rcases hdfacts d hd with h0 | ⟨l', hl', he⟩
                · cases h0
                · have hl'p := hrest l' hl'
                  subst he
                  refine ⟨?_, ?_⟩
                  · intro hn
                    exact hl'p.2 (pyStripL_subset _ hn)
                  · exact pyStripL_has_non_ws
                      ((string_ne_empty_iff _).mp hl'p.1)
              rcases inst with _ | ⟨i⟩
              · exact basicRow_shape l d0 dr amt year pd index hdl
                  (fun d hd => (hdprop d hd).1)
                  (hdprop d0 (List.mem_cons_self _ _)).2 hamt hy
              · have hiws := hinstf i rfl
                have hgoal := basicRow_shape l d0 (dr ++ [i]) amt year pd
                  index hdl ?hnl ?hd0 hamt hy
                case hnl =>
                  intro d hd
                  rcases List.mem_cons.mp hd with rfl | hd2
                  · exact (hdprop d (List.mem_cons_self _ _)).1
                  · rcases List.mem_append.mp hd2 with hd3 | hd3
                    · exact (hdprop d (List.mem_cons_of_mem _ hd3)).1
                    · rcases List.mem_singleton.mp hd3 with rfl
                      exact ws_free_no_nl hiws
                case hd0 => exact (hdprop d0 (List.mem_cons_self _ _)).2
                exact hgoal
            · refine ih rest2 year pd (index + 1) hy ?_ row hrow2
              intro l' hl'
              exact hrest l' (hsub l' hl')
          · exact ih rest year pd index hy hrest row hrow
        · exact ih rest year pd index hy hrest row hrow
      · exact ih rest year pd index hy hrest row hrow

/-- Invariant of the post-split, post-filter line list both parsers run
on: every line is newline-free and survives the blank filter. -/
theorem block_lines_inv (block : String) :
    ∀ l ∈ ((pySplitlines block).map fixSpacedDateLine).filter
      (fun l => pyStrip l ≠ ""),
      pyStrip l ≠ "" ∧ '\n' ∉ l.data := by
  intro l hl
  have hmem := List.mem_of_mem_filter hl
  have hpred := List.of_mem_filter hl
  constructor
  · exact of_decide_eq_true hpred
  · rcases List.mem_map.mp hmem with ⟨l0, hl0, rfl⟩
    exact fixSpacedDateLine_no_nl (pySplitlines_no_nl block l0 hl0)

/-- Invariant of an in-flight or closed statement record of the enhanced
parser: the date is a whitespace-free `DD/MM` text, the description is
newline-free and (when non-empty) contains a non-whitespace character,
any installment tag is a whitespace-free `DD/MM` text, and any amount
passed the amount grammar. -/
def StmtInv (s : StmtRec) : Prop :=
  isDateText s.date.data = true
  ∧ (∀ x ∈ s.date.data, isWs x = false)
  ∧ '\n' ∉ s.desc.data
  ∧ (s.desc ≠ "" → ∃ x ∈ s.desc.data, isWs x = false)
  ∧ (∀ i, s.installment = some i →
      isDateText i.data = true ∧ ∀ x ∈ i.data, isWs x = false)
  ∧ (∀ a, s.amount = some a → ∃ v, normalize_amount_text v = some a)

theorem StmtInv_fresh (t : String)
    (h : isDateText (stripWs t).data = true) :
    StmtInv ⟨stripWs t, "", none, none, "", ""⟩ := by
  refine ⟨h, stripWsL_no_ws t.data, by simp, ?_, ?_, ?_⟩
  · intro hne; exact absurd rfl hne
  · intro i hi; cases hi
  · intro a ha; cases ha

theorem StmtInv_amount (c : StmtRec) (amt v : String) (hc : StmtInv c)
    (hv : normalize_amount_text v = some amt) :
    StmtInv { c with amount := some amt } := by
  obtain ⟨i1, i2, i3, i4, i5, _⟩ := hc
  refine ⟨i1, i2, i3, i4, i5, ?_⟩
  intro a ha
  have h2 : some amt = some a := ha
  cases h2
  exact ⟨v, hv⟩

theorem StmtInv_inst (c : StmtRec) (t amt v : String) (hc : StmtInv c)
    (hdt : isDateText (stripWs t).data = true)
    (hv : normalize_amount_text v = some amt) :
    StmtInv { c with installment := some (stripWs t),
                     amount := some amt } := by
  obtain ⟨i1, i2, i3, i4, _, _⟩ := hc
  refine ⟨i1, i2, i3, i4, ?_, ?_⟩
  · intro i hi
    have h2 : some (stripWs t) = some i := hi
    cases h2
    exact ⟨hdt, stripWsL_no_ws t.data⟩
  · intro a ha
    have h2 : some amt = some a := ha
    cases h2
    exact ⟨v, hv⟩

theorem StmtInv_descUpdate (c : StmtRec) (rl : String) (hc : StmtInv c)
    (hnl : '\n' ∉ rl.data) (hnw : ∃ x ∈ rl.data, isWs x = false) :
    StmtInv { c with desc := if c.desc = "" then rl
      else c.desc ++ " " ++ rl } := by
  obtain ⟨i1, i2, i3, _, i5, i6⟩ := hc
  refine ⟨i1, i2, ?_, ?_, i5, i6⟩
  · show '\n' ∉ (if c.desc = "" then rl else c.desc ++ " " ++ rl).data
    split
    · exact hnl
    · intro hm
      simp only [String.data_append] at hm
      rcases List.mem_append.mp hm with hm | hm
      · rcases List.mem_append.mp hm with hm | hm
        · exact i3 hm
        · have h3 : '\n' ∈ [' '] := hm
          simp at h3
      · exact hnl hm
  · intro _
    show ∃ x ∈ (if c.desc = "" then rl else c.desc ++ " " ++ rl).data,
      isWs x = false
    obtain ⟨x, hx, hxw⟩ := hnw
    split
    · exact ⟨x, hx, hxw⟩
    · refine ⟨x, ?_, hxw⟩
      simp only [String.data_append]
      exact List.mem_append_right _ hx

/-- `metaPendingStep` only touches category and location, so it preserves
the statement invariant. -/
theorem metaPendingStep_inv (rl : String) (stmts : List StmtRec)
    (pending : List Nat) (h : ∀ s ∈ stmts, StmtInv s) :
    ∀ s ∈ (metaPendingStep rl stmts pending).1, StmtInv s := by
  simp only [metaPendingStep]
  split
  · exact h
  · next idx pending' =>
    split
    · next htok =>
      split
      · next s0 heq =>
        intro s hs
        rcases List.mem_or_eq_of_mem_set hs with hs2 | rfl
        · exact h s hs2
        · exact h s0 (List.get?_mem heq)
      · exact h
    · exact h

/-- The enhanced parser's loop preserves the statement invariant. -/
theorem parseMetaGo_inv :
    ∀ (fuel : Nat) (ls : List String) (current : Option StmtRec)
      (stmts : List StmtRec) (pending : List Nat),
      (∀ l ∈ ls, pyStrip l ≠ "" ∧ '\n' ∉ l.data) →
      (∀ c, current = some c → StmtInv c) →
      (∀ s ∈ stmts, StmtInv s) →
      ∀ s ∈ parseMetaGo fuel ls current stmts pending, StmtInv s := by
  intro fuel
  induction fuel with
  | zero =>
    intro ls current stmts pending hls hcur hstmts s hs
    rcases ls with _ | ⟨l, rest⟩ <;>
      (simp only [parseMetaGo] at hs; exact hstmts s hs)
  | succ n ih =>
    intro ls current stmts pending hls hcur hstmts s hs
    rcases ls with _ | ⟨l, rest⟩
    · simp only [parseMetaGo] at hs
      exact hstmts s hs
    · have hl := hls l (List.mem_cons_self _ _)
      have hrest : ∀ l' ∈ rest, pyStrip l' ≠ "" ∧ '\n' ∉ l'.data :=
        fun l' hl' => hls l' (List.mem_cons_of_mem _ hl')
      have hrawnl : '\n' ∉ (pyStrip l).data :=
        fun hm => hl.2 (pyStripL_subset _ hm)
      have hrawnw : ∃ x ∈ (pyStrip l).data, isWs x = false :=
        pyStripL_has_non_ws ((string_ne_empty_iff _).mp hl.1)
      rcases current with _ | ⟨c⟩
      · simp only [parseMetaGo] at hs
        split at hs
        · next hdt =>
          refine ih rest _ stmts pending hrest ?_ hstmts s hs
          intro c' hc'
          have h2 : some (⟨stripWs (pyStrip l), "", none, none, "", ""⟩
            : StmtRec) = some c' := hc'
          cases h2
          exact StmtInv_fresh (pyStrip l) hdt
        · exact ih rest none _ _ hrest (by intro c' hc'; cases hc')
            (metaPendingStep_inv (pyStrip l) stmts pending hstmts) s hs
      · have hcinv := hcur c rfl
        simp only [parseMetaGo] at hs
        split at hs
        · next hdt =>
          refine ih rest _ stmts pending hrest ?_ hstmts s hs
          intro c' hc'
          by_cases hca : c.amount = none
          · rw [if_pos hca] at hc'
            have h2 : some (⟨stripWs (pyStrip l), "", none, none, "", ""⟩
              : StmtRec) = some c' := hc'
            cases h2
            exact StmtInv_fresh (pyStrip l) hdt
          · rw [if_neg hca] at hc'
            have h2 : some c = some c' := hc'
            cases h2
            exact hcinv
        · split at hs
          · next hca =>
            split at hs
            · next amt heq =>
              refine ih rest none _ _ hrest (by intro c' hc'; cases hc')
                ?_ s hs
              intro s' hs'
              rcases List.mem_append.mp hs' with h' | h'
              · exact hstmts s' h'
              · rcases List.mem_singleton.mp h' with rfl
                exact StmtInv_amount c amt (pyStrip l) hcinv heq
            · next heq =>
              refine ih rest _ stmts pending hrest ?_ hstmts s hs
              intro c' hc'
              have h2 : some { c with desc :=
                  (if c.desc = "" then pyStrip l
                   else c.desc ++ " " ++ pyStrip l) } = some c' := hc'
              cases h2
              exact StmtInv_descUpdate c (pyStrip l) hcinv hrawnl hrawnw
          · exact ih rest (some c) _ _ hrest hcur
              (metaPendingStep_inv (pyStrip l) stmts pending hstmts) s hs

theorem metaOutput_fst (s : StmtRec) (ss : List StmtRec) (year : String)
    (pd : Option String) (index : Nat) :
    (metaOutput (s :: ss) year pd index).1
      = if s.amount ≠ none ∧ s.amount ≠ some "" ∧ s.desc ≠ ""
          ∧ s.date ≠ "" then
          (mkRow index (match s.installment with
            | some inst =>
              if inst = "" then
                s.date ++ "\n" ++ s.desc ++ "\n" ++ s.amount.getD ""
              else s.date ++ "\n" ++ s.desc ++ "\n" ++ inst ++ "\n"
                ++ s.amount.getD ""
            | none => s.date ++ "\n" ++ s.desc ++ "\n" ++ s.amount.getD "")
            year pd ++ "," ++ s.category ++ "," ++ s.location)
            :: (metaOutput ss year pd (index + 1)).1
        else (metaOutput ss year pd index).1 := by
  show (if s.amount ≠ none ∧ s.amount ≠ some "" ∧ s.desc ≠ ""
      ∧ s.date ≠ "" then
      ((mkRow index (match s.installment with
        | some inst =>
          if inst = "" then
            s.date ++ "\n" ++ s.desc ++ "\n" ++ s.amount.getD ""
          else s.date ++ "\n" ++ s.desc ++ "\n" ++ inst ++ "\n"
            ++ s.amount.getD ""
        | none => s.date ++ "\n" ++ s.desc ++ "\n" ++ s.amount.getD "")
        year pd ++ "," ++ s.category ++ "," ++ s.location)
        :: (metaOutput ss year pd (index + 1)).1,
       (metaOutput ss year pd (index + 1)).2)
    else metaOutput ss year pd index).1 = _
  split
  · rfl
  · rfl

/-- The tail of the row-shape argument shared by both mtext shapes: once
`match_to_csv` is known to produce `date,description,amount` with a
comma-free date field, `mkRow` plus the category/location suffix is a
well-formed row. -/
theorem metaRow_tail (mtext year cat loc : String) (pd : Option String)
    (index : Nat) (d mo : List Char) (descS : String) (neg : Bool)
    (ds : List Char) (d1 d2 : Char)
    (hmc : match_to_csv mtext year
      = (⟨d⟩ : String) ++ "/" ++ (⟨mo⟩ : String) ++ "/" ++ year ++ ","
        ++ descS ++ ","
        ++ (⟨(if neg then ['-'] else []) ++ ds ++ ['.', d1, d2]⟩ : String))
    (hdne : d ≠ []) (hmone : mo ≠ []) (hddig : ∀ x ∈ d, x.isDigit = true)
    (hmodig : ∀ x ∈ mo, x.isDigit = true) (hdescne : descS ≠ "")
    (hdsne : ds ≠ []) (hdsdig : ∀ x ∈ ds, x.isDigit = true)
    (h1 : d1.isDigit = true) (h2 : d2.isDigit = true)
    (hyear : ',' ∉ year.data) :
    rowWellFormed year ("," ++ cat ++ "," ++ loc) pd
      (mkRow index mtext year pd ++ "," ++ cat ++ "," ++ loc) := by
  set amtS := (⟨(if neg then ['-'] else []) ++ ds ++ ['.', d1, d2]⟩ : String)
    with hamtS
  have hdata : (match_to_csv mtext year).data
      = (d ++ '/' :: (mo ++ '/' :: year.data))
        ++ ',' :: (descS.data ++ ',' :: amtS.data) := by
    rw [hmc]
    simp [String.data_append]
  have hdpfree : ',' ∉ d ++ '/' :: (mo ++ '/' :: year.data) := by
    intro hm
    rcases List.mem_append.mp hm with hm | hm
    · exact isDigit_ne_comma (hddig ',' hm) rfl
    · rcases List.mem_cons.mp hm with he | hm2
      · exact absurd he.symm (by decide)
      · rcases List.mem_append.mp hm2 with hm3 | hm3
        · exact isDigit_ne_comma (hmodig ',' hm3) rfl
        · rcases List.mem_cons.mp hm3 with he | hm4
          · exact absurd he.symm (by decide)
          · exact hyear hm4
  have hcr : ',' ∈ descS.data ++ ',' :: amtS.data :=
    List.mem_append_right _ (List.mem_cons_self _ _)
  have hrow := mkRow_decomp index mtext year pd _ _ hdata hdpfree hcr
  refine ⟨index, d, mo, descS, neg, ds, d1, d2, ?_, hdne, hmone, hddig,
    hmodig, hdescne, hdsne, hdsdig, h1, h2⟩
  apply stringDataEq
  simp only [String.data_append]
  rw [hrow]
  simp [String.data_append]

/-- Any statement record that satisfies the invariant and the output
guard yields a well-formed row with its category/location appended. -/
theorem metaRow_shape (s : StmtRec) (year : String) (pd : Option String)
    (index : Nat) (hinv : StmtInv s)
    (hg : s.amount ≠ none ∧ s.amount ≠ some "" ∧ s.desc ≠ ""
      ∧ s.date ≠ "")
    (hyear : ',' ∉ year.data) :
    rowWellFormed year ("," ++ s.category ++ "," ++ s.location) pd
      (mkRow index (match s.installment with
        | some inst =>
          if inst = "" then
            s.date ++ "\n" ++ s.desc ++ "\n" ++ s.amount.getD ""
          else s.date ++ "\n" ++ s.desc ++ "\n" ++ inst ++ "\n"
            ++ s.amount.getD ""
        | none => s.date ++ "\n" ++ s.desc ++ "\n" ++ s.amount.getD "")
        year pd ++ "," ++ s.category ++ "," ++ s.location) := by
  obtain ⟨hdt, hdws, hdnl, hdnw, hinstf, hamtf⟩ := hinv
  rcases ha : s.amount with _ | ⟨a⟩
  · exact absurd ha hg.1
  obtain ⟨v, hv⟩ := hamtf a ha
  obtain ⟨neg, ds, d1, d2, hshape, hdsne, hdsdig, h1, h2, hamtws⟩ :=
    normalize_amount_text_shape v a hv
  have hdtt : (dateParts s.date.data).isSome := hdt
  rcases hsome : dateParts s.date.data with _ | ⟨d, mo⟩
  · rw [hsome] at hdtt; cases hdtt
  obtain ⟨hcs, hdne, hmone, hddig, hmodig⟩ := dateParts_some hsome
  have hdescS : pyStrip (collapseWs2 s.desc) ≠ "" := by
    rw [string_ne_empty_iff]
    apply pyStripL_ne_nil
    apply collapseWs2Fuel_has_non_ws
    exact hdnw hg.2.2.1
  simp only [Option.getD_some]
  rcases hi : s.installment with _ | ⟨inst⟩
  · exact metaRow_tail _ year s.category s.location pd index d mo _ neg ds
      d1 d2
      (match_to_csv_structured s.date s.desc a year d mo neg ds d1 d2
        hsome hdws hdnl hshape hamtws hdsdig h1 h2)
      hdne hmone hddig hmodig hdescS hdsne hdsdig h1 h2 hyear
  · obtain ⟨hidt, hiws⟩ := hinstf inst hi
    show rowWellFormed year ("," ++ s.category ++ "," ++ s.location) pd
      (mkRow index (if inst = "" then
          s.date ++ "\n" ++ s.desc ++ "\n" ++ a
        else s.date ++ "\n" ++ s.desc ++ "\n" ++ inst ++ "\n" ++ a)
        year pd ++ "," ++ s.category ++ "," ++ s.location)
    by_cases hie : inst = ""
    · rw [if_pos hie]
      exact metaRow_tail _ year s.category s.location pd index d mo _ neg
        ds d1 d2
        (match_to_csv_structured s.date s.desc a year d mo neg ds d1 d2
          hsome hdws hdnl hshape hamtws hdsdig h1 h2)
        hdne hmone hddig hmodig hdescS hdsne hdsdig h1 h2 hyear
    · rw [if_neg hie]
      refine metaRow_tail _ year s.category s.location pd index d mo
        (pyStrip (collapseWs2 s.desc) ++ " " ++ inst) neg ds d1 d2
        (match_to_csv_structured4 s.date s.desc inst a year d mo neg ds
          d1 d2 hsome hdws hdnl hiws hidt hshape hamtws hdsdig h1 h2)
        hdne hmone hddig hmodig ?_ hdsne hdsdig h1 h2 hyear
      rw [string_ne_empty_iff]
      intro he
      have hsp : ' '
          ∈ (pyStrip (collapseWs2 s.desc) ++ " " ++ inst).data := by
        simp only [String.data_append]
        exact List.mem_append_left _
          (List.mem_append_right _ (by decide))
      rw [he] at hsp
      cases hsp

/-- Every row emitted by `metaOutput` over invariant-satisfying records
is a well-formed row followed by its category and location. -/
theorem metaOutput_shape :
    ∀ (stmts : List StmtRec) (year : String) (pd : Option String)
      (index : Nat),
      (∀ s ∈ stmts, StmtInv s) → ',' ∉ year.data →
      ∀ row ∈ (metaOutput stmts year pd index).1,
        ∃ cat loc : String,
          rowWellFormed year ("," ++ cat ++ "," ++ loc) pd row := by
  intro stmts
  induction stmts with
  | nil =>
    intro year pd index hinv hy row hrow
    simp [metaOutput] at hrow
  | cons s ss ih =>
    intro year pd index hinv hy row hrow
    rw [metaOutput_fst] at hrow
    split at hrow
    · next hg =>
      rcases List.mem_cons.mp hrow with rfl | hrow2
      · exact ⟨s.category, s.location,
          metaRow_shape s year pd index (hinv s (List.mem_cons_self _ _))
            hg hy⟩
      · exact ih year pd (index + 1)
          (fun s' hs' => hinv s' (List.mem_cons_of_mem _ hs')) hy row hrow2
    · exact ih year pd index
        (fun s' hs' => hinv s' (List.mem_cons_of_mem _ hs')) hy row hrow

/-- C9 (amended): every row emitted by either block parser decomposes as
`index,DD/MM/year,payment,description,amount` — plus `,category,location`
for the enhanced parser — with a non-empty description and an amount text
that is an optional minus, at least one digit, a dot and exactly two
digits.  (The original claim's further assertion, that an accumulation
interrupted by a new date line before any amount is found is discarded,
fails for the basic parser, which absorbs the date line into the
description; see the counterexample.) -/
theorem parser_row_invariant (block year : String) (pd : Option String)
    (index : Nat) (hyear : ',' ∉ year.data) :
    (∀ row ∈ (parse_block_basic block year pd index).1,
      rowWellFormed year "" pd row)
    ∧ (∀ row ∈ (parse_block_with_metadata block year pd index).1,
      ∃ cat loc : String,
        rowWellFormed year ("," ++ cat ++ "," ++ loc) pd row) := by
  constructor
  · intro row hrow
    exact parseBasicGo_inv _ _ year pd index hyear (block_lines_inv block)
      row hrow
  · intro row hrow
    exact metaOutput_shape _ year pd index
      (parseMetaGo_inv _ _ none [] [] (block_lines_inv block)
        (by intro c hc; cases hc) (by intro s hs; cases hs))
      hyear row hrow

/-- Witness for `parser_row_invariant` at a concrete block. -/
theorem parser_row_invariant_witness :
    ',' ∉ ("24" : String).data
    ∧ rowWellFormed "24" "" none "0,01/02/24,,Foo,10.00" := by
  refine ⟨by decide, ?_⟩
  exact (parser_row_invariant "01/02\nFoo\n10,00" "24" none 0
    (by decide)).1 "0,01/02/24,,Foo,10.00" (by decide)

/-- Counterexample to the original C9 discard clause: in the basic
parser a date line (`03/04`) arriving before any amount does not abandon
the accumulated entry — it is absorbed into the description, and the row
that the claim says should start at `03/04` is never produced. -/
theorem parser_row_invariant_cex :
    parse_block_basic "01/02\nFoo\n03/04\nBar\n10,00" "24" none 0
      = (["0,01/02/24,,Foo 03/04 Bar,10.00"], 1)
    ∧ (["0,01/02/24,,Foo 03/04 Bar,10.00"] : List String)
      ≠ ["0,03/04/24,,Bar,10.00"] := by
  constructor
  · decide
  · decide

/-- C4 (amended): a bare `DD/MM` transaction date is completed with the
caller-supplied year verbatim.  Even for a December (`DD/12`)
transaction date the supplied year is used unchanged — `match_to_csv`
performs no December/January rollover for any year value, including one
derived from a January payment-due date. -/
theorem match_to_csv_no_rollover (dm desc amt year : String)
    (d : List Char) (neg : Bool) (ds : List Char) (d1 d2 : Char)
    (hdm : dateParts dm.data = some (d, ['1', '2']))
    (hdmws : ∀ x ∈ dm.data, isWs x = false)
    (hdescnl : '\n' ∉ desc.data)
    (hamt : amt.data = (if neg then ['-'] else []) ++ ds ++ [',', d1, d2])
    (hamtws : ∀ x ∈ amt.data, isWs x = false)
    (hds : ∀ x ∈ ds, x.isDigit = true) (hd1 : d1.isDigit = true)
    (hd2 : d2.isDigit = true) :
    match_to_csv (dm ++ "\n" ++ desc ++ "\n" ++ amt) year
      = (⟨d⟩ : String) ++ "/" ++ "12" ++ "/" ++ year ++ ","
        ++ pyStrip (collapseWs2 desc) ++ ","
        ++ (⟨(if neg then ['-'] else []) ++ ds ++ ['.', d1, d2]⟩ : String) :=
  match_to_csv_structured dm desc amt year d ['1', '2'] neg ds d1 d2 hdm
    hdmws hdescnl hamt hamtws hds hd1 hd2

/-- Witness for `match_to_csv_no_rollover` on a December date with a
year taken from a January due date. -/
theorem match_to_csv_no_rollover_witness :
    match_to_csv "15/12\nFoo\n10,00" "25" = "15/12/25,Foo,10.00" := by
  have h := match_to_csv_no_rollover "15/12" "Foo" "10,00" "25"
    ['1', '5'] false ['1', '0'] '0' '0' (by decide) (by decide)
    (by decide) (by decide) (by decide) (by decide) (by decide) (by decide)
  have h2 : ("15/12\nFoo\n10,00" : String)
      = "15/12" ++ "\n" ++ "Foo" ++ "\n" ++ "10,00" := by decide
  rw [h2, h]
  decide

/-- Counterexample to the original C4: a `15/12` transaction date paired
with a `10/01/25` January payment-due date keeps the supplied year `25`
(row date `15/12/25`); the claimed prior-year rollover (`15/12/24`)
never happens. -/
theorem match_to_csv_no_rollover_cex :
    blocks_to_statements ["15/12\nFoo\n10,00"] "25" (some "10/01/25") false
      = ["0,15/12/25,10/01/25,Foo,10.00"]
    ∧ ("0,15/12/25,10/01/25,Foo,10.00" : String)
      ≠ "0,15/12/24,10/01/25,Foo,10.00" := by
  exact ⟨by decide, by decide⟩

/-- C5 (amended): while the pending queue is non-empty, a non-date line
with at least two whitespace-separated tokens is rsplit at its last
space into category (left) and location (right), assigned to the oldest
pending statement, and consumes that pending entry; but a line with
fewer than two tokens is skipped outright — it assigns nothing (not even
to category) and consumes no pending entry. -/
theorem metaPendingStep_spec (rl : String) (stmts : List StmtRec)
    (idx : Nat) (pending' : List Nat) (s0 : StmtRec)
    (hget : stmts.get? idx = some s0) :
    ((pyTokens rl).length ≥ 2 →
      metaPendingStep rl stmts (idx :: pending')
        = (stmts.set idx
            { s0 with category := pyStrip ((pyRsplitSpace rl).getD 0 ""),
                      location := pyStrip ((pyRsplitSpace rl).getD 1 "") },
           pending'))
    ∧ ((pyTokens rl).length < 2 →
      metaPendingStep rl stmts (idx :: pending')
        = (stmts, idx :: pending')) := by
  constructor
  · intro h
    simp only [metaPendingStep]
    rw [if_pos h, hget]
  · intro h
    simp only [metaPendingStep]
    rw [if_neg (by omega)]

/-- Witness for `metaPendingStep_spec` on a two-token and a one-token
metadata line. -/
theorem metaPendingStep_spec_witness :
    metaPendingStep "CAT LOC"
        [(⟨"01/02", "Coffee", none, some "10,00", "", ""⟩ : StmtRec)] [0]
      = ([⟨"01/02", "Coffee", none, some "10,00", "CAT", "LOC"⟩], [])
    ∧ metaPendingStep "AIRLINE"
        [(⟨"01/02", "Coffee", none, some "10,00", "", ""⟩ : StmtRec)] [0]
      = ([⟨"01/02", "Coffee", none, some "10,00", "", ""⟩], [0]) := by
  constructor
  · have h := metaPendingStep_spec "CAT LOC"
      [(⟨"01/02", "Coffee", none, some "10,00", "", ""⟩ : StmtRec)] 0 []
      ⟨"01/02", "Coffee", none, some "10,00", "", ""⟩ rfl
    exact (h.1 (by decide)).trans (by decide)
  · have h := metaPendingStep_spec "AIRLINE"
      [(⟨"01/02", "Coffee", none, some "10,00", "", ""⟩ : StmtRec)] 0 []
      ⟨"01/02", "Coffee", none, some "10,00", "", ""⟩ rfl
    exact h.2 (by decide)

/-- Counterexample to the original C5: a single-token metadata line
(`AIRLINE`) arriving while one entry is pending is not assigned to the
statement's category — the emitted row keeps empty category and
location, not category `AIRLINE`. -/
theorem metaPendingStep_spec_cex :
    parse_block_with_metadata "01/02\nCoffee\n10,00\nAIRLINE" "24" none 0
      = (["0,01/02/24,,Coffee,10.00,,"], 1)
    ∧ (["0,01/02/24,,Coffee,10.00,,"] : List String)
      ≠ ["0,01/02/24,,Coffee,10.00,AIRLINE,"] := by
  exact ⟨by decide, by decide⟩

theorem sumAmounts_cons (r : String) (rs : List String) (a s : ℚ)
    (hr : rowAmount r = some a) (hs : sumAmounts rs = some s) :
    sumAmounts (r :: rs) = some (a + s) := by
  unfold sumAmounts
  rw [hr, hs]

theorem rowAmount_eval (row f : String) (q : ℚ)
    (h5 : (pySplit row ',').get? 4 = some f) (hf : parseFloat f = some q) :
    rowAmount row = some q := by
  unfold rowAmount
  rw [h5]
  exact hf

theorem parseFloat_eval (s : String) (neg : Bool) (ip fp : List Char)
    (h : parseFloatParts s = some ⟨neg, ip, fp⟩) :
    parseFloat s = some ((if neg then -1 else 1)
      * ((natVal ip : ℚ) + (natVal fp : ℚ) / 10 ^ fp.length)) := by
  unfold parseFloat
  rw [h]
  rfl

/-- `round2` on an exact two-decimal rational is division of its
integer numerator by 100. -/
theorem round2_int (n : ℤ) (q : ℚ) (h : q * 100 = (n : ℚ)) :
    round2 q = (n : ℚ) / 100 := by
  unfold round2
  rw [h, round_intCast]

/-- C8: a reconciliation mismatch is non-fatal.  When the computed total
of the unflipped amounts differs from the printed total after
two-decimal rounding, the per-document outcome records the mismatch with
the expected total, the computed total and their difference, and still
emits every parsed row (sign-flipped), one output row per input row. -/
theorem check_total_nonfatal (rows : List String) (t s : ℚ)
    (hsum : sumAmounts rows = some s) (hne : round2 s ≠ round2 t) :
    processDocument rows (some t)
      = ⟨false, some (.mismatch t s (t - s)), flip_sign_last_column rows⟩
    ∧ (processDocument rows (some t)).rows.length = rows.length := by
  have hct : check_total rows t = .error (.mismatch t s (t - s)) := by
    unfold check_total
    rw [hsum]
    exact if_pos hne
  have hpd : processDocument rows (some t)
      = ⟨false, some (.mismatch t s (t - s)),
         flip_sign_last_column rows⟩ := by
    show (match check_total rows t with
      | .ok _ => (⟨false, none, flip_sign_last_column rows⟩ : DocOutcome)
      | .error e => ⟨false, some e, flip_sign_last_column rows⟩) = _
    rw [hct]
  refine ⟨hpd, ?_⟩
  rw [hpd]
  simp [flip_sign_last_column]

/-- Witness for `check_total_nonfatal`: two statements summing to 15.50
against an expected total of 10.00 — mismatch reported, both rows still
emitted (flipped). -/
theorem check_total_nonfatal_witness :
    sumAmounts ["0,01/02/24,,A,10.00", "1,01/02/24,,B,5.50"]
      = some (31 / 2)
    ∧ round2 (31 / 2) ≠ round2 10
    ∧ processDocument ["0,01/02/24,,A,10.00", "1,01/02/24,,B,5.50"]
        (some 10)
      = ⟨false, some (.mismatch 10 (31 / 2) (10 - 31 / 2)),
         ["0,01/02/24,,A,-10.0", "1,01/02/24,,B,-5.5"]⟩ := by
  have ha : rowAmount "0,01/02/24,,A,10.00" = some (10 : ℚ) := by
    refine rowAmount_eval _ "10.00" 10 (by decide) ?_
    refine (parseFloat_eval "10.00" false ['1', '0'] ['0', '0']
      (by decide)).trans (congrArg some ?_)
    rw [show natVal ['1', '0'] = 10 from by decide,
      show natVal (['0', '0'] : List Char) = 0 from by decide]
    norm_num
  have hb : rowAmount "1,01/02/24,,B,5.50" = some (11 / 2 : ℚ) := by
    refine rowAmount_eval _ "5.50" (11 / 2) (by decide) ?_
    refine (parseFloat_eval "5.50" false ['5'] ['5', '0']
      (by decide)).trans (congrArg some ?_)
    rw [show natVal ['5'] = 5 from by decide,
      show natVal (['5', '0'] : List Char) = 50 from by decide]
    norm_num
  have hsum : sumAmounts ["0,01/02/24,,A,10.00", "1,01/02/24,,B,5.50"]
      = some (31 / 2) := by
    refine (sumAmounts_cons _ _ 10 (11 / 2 + 0) ha
      (sumAmounts_cons _ [] (11 / 2) 0 hb rfl)).trans (congrArg some ?_)
    norm_num
  have hne : round2 (31 / 2) ≠ round2 (10 : ℚ) := by
    rw [round2_int 1550 (31 / 2) (by norm_num),
      round2_int 1000 10 (by norm_num)]
    norm_num
  refine ⟨hsum, hne, ?_⟩
  have h := (check_total_nonfatal _ 10 (31 / 2) hsum hne).1
  rw [h]
  have hflip : flip_sign_last_column
      ["0,01/02/24,,A,10.00", "1,01/02/24,,B,5.50"]
      = ["0,01/02/24,,A,-10.0", "1,01/02/24,,B,-5.5"] := by decide
  rw [hflip]

theorem trimTrailZeros_subset {b : List Char} :
    ∀ x ∈ trimTrailZeros b, x ∈ b := by
  intro x hx
  unfold trimTrailZeros at hx
  have h1 := List.mem_reverse.mp hx
  have h2 := mem_of_dropWhile_mem _ h1
  exact List.mem_reverse.mp h2

/-- The digits recorded by a successful float parse are digits. -/
theorem parseFloatParts_digits {s : String} {p : FloatParts}
    (h : parseFloatParts s = some p) :
    (∀ x ∈ p.intDigits, x.isDigit = true)
    ∧ (∀ x ∈ p.fracDigits, x.isDigit = true) := by
  simp only [parseFloatParts, parseFloatPartsL] at h
  split at h
  · split at h
    · cases h
    · next hip =>
      injection h with h'
      subst h'
      refine ⟨fun x hx => List.mem_takeWhile_imp hx, fun x hx => ?_⟩
      cases hx
  · split at h
    · split at h
      · injection h with h'
        subst h'
        exact ⟨fun x hx => List.mem_takeWhile_imp hx,
          fun x hx => List.mem_takeWhile_imp hx⟩
      · cases h
    · cases h

/-- `str(float)` round-trips through `float(...)` to the exact value. -/
theorem parseFloat_pyFloatStr (p : FloatParts)
    (hfd : ∀ x ∈ p.fracDigits, x.isDigit = true) :
    parseFloat (pyFloatStr p) = some (partsVal p) := by
  obtain ⟨hipval, hipne, hipdig⟩ := natToChars_spec (natVal p.intDigits)
  have hfp0dig : ∀ x ∈ trimTrailZeros p.fracDigits, x.isDigit = true :=
    fun x hx => hfd x (trimTrailZeros_subset _ hx)
  have hfp'dig : ∀ x ∈ (if trimTrailZeros p.fracDigits = [] then ['0']
      else trimTrailZeros p.fracDigits), x.isDigit = true := by
    split
    · intro x hx
      rcases List.mem_singleton.mp hx with rfl
      decide
    · exact hfp0dig
  have hparse : parseFloatParts (pyFloatStr p)
      = some ⟨p.neg, natToChars (natVal p.intDigits),
          (if trimTrailZeros p.fracDigits = [] then ['0']
           else trimTrailZeros p.fracDigits)⟩ := by
    show parseFloatPartsL ((if p.neg then ['-'] else [])
      ++ natToChars (natVal p.intDigits) ++ '.'
        :: (if trimTrailZeros p.fracDigits = [] then ['0']
            else trimTrailZeros p.fracDigits)) = _
    exact parseFloatPartsL_core p.neg _ _ hipne hipdig hfp'dig
  unfold parseFloat
  rw [hparse]
  apply congrArg some
  show (if p.neg then (-1 : ℚ) else 1)
      * ((natVal (natToChars (natVal p.intDigits)) : ℚ)
        + (natVal (if trimTrailZeros p.fracDigits = [] then ['0']
            else trimTrailZeros p.fracDigits) : ℚ)
          / 10 ^ (if trimTrailZeros p.fracDigits = [] then ['0']
            else trimTrailZeros p.fracDigits).length)
    = partsVal p
  rw [hipval]
  have hfrac : (natVal (if trimTrailZeros p.fracDigits = [] then ['0']
        else trimTrailZeros p.fracDigits) : ℚ)
      / 10 ^ (if trimTrailZeros p.fracDigits = [] then ['0']
        else trimTrailZeros p.fracDigits).length
      = (natVal p.fracDigits : ℚ) / 10 ^ p.fracDigits.length := by
    have htrim := natVal_frac_trim p.fracDigits
    split
    · next h0 =>
      rw [h0] at htrim
      rw [show natVal ['0'] = 0 from by decide]
      rw [show natVal ([] : List Char) = 0 from by decide] at htrim
      simp only [Nat.cast_zero, zero_div] at htrim ⊢
      exact htrim
    · exact htrim
  rw [hfrac]
  rfl

/-- Flipping the sign bit negates the exact value. -/
theorem partsVal_negFlip (p : FloatParts) :
    partsVal { p with neg := !p.neg } = -(partsVal p) := by
  rcases p with ⟨neg, ip, fp⟩
  rcases neg with _ | _ <;> simp [partsVal]

/-- C6 (amended): on a row whose first four fields are comma-free and
whose fifth field parses as a float, the sign flip rewrites exactly the
fifth field to the re-rendered negated value — whose parsed value is
`-parse(a)` — and the per-document driver applies the flip exactly once,
after reconciliation has been computed over the unflipped rows.
(The original claim fails for rows whose description contains a comma:
`split(",", 6)` then misaligns the fields, `float` raises, and the row
passes through with its amount unflipped; see the counterexample.) -/
theorem flip_once_spec (c0 c1 c2 c3 amt : String) (p : FloatParts)
    (h0 : ',' ∉ c0.data) (h1 : ',' ∉ c1.data) (h2 : ',' ∉ c2.data)
    (h3 : ',' ∉ c3.data) (hamt : ',' ∉ amt.data)
    (hp : parseFloatParts ⟨commaToDot amt.data⟩ = some p) :
    flipRow (c0 ++ "," ++ c1 ++ "," ++ c2 ++ "," ++ c3 ++ "," ++ amt)
      = c0 ++ "," ++ c1 ++ "," ++ c2 ++ "," ++ c3 ++ ","
        ++ pyFloatStr { p with neg := !p.neg }
    ∧ parseFloat (pyFloatStr { p with neg := !p.neg })
      = some (-(partsVal p))
    ∧ (∀ (rows : List String) (t : ℚ),
        (processDocument rows (some t)).rows = flip_sign_last_column rows
        ∧ (processDocument rows (some t)).mismatch
          = (match check_total rows t with
             | .ok _ => none
             | .error e => some e)) := by
  refine ⟨?_, ?_, ?_⟩
  · have hdata : (c0 ++ "," ++ c1 ++ "," ++ c2 ++ "," ++ c3 ++ ","
        ++ amt).data
        = c0.data ++ ',' :: (c1.data ++ ',' :: (c2.data
          ++ ',' :: (c3.data ++ ',' :: amt.data))) := by
      simp [String.data_append]
    have hparts : splitMaxAux ',' 6 (c0 ++ "," ++ c1 ++ "," ++ c2 ++ ","
        ++ c3 ++ "," ++ amt).data []
        = [c0.data, c1.data, c2.data, c3.data, amt.data] := by
      rw [hdata, splitMaxAux_prefix c0.data h0 5 _ [],
        splitMaxAux_prefix c1.data h1 4 _ [],
        splitMaxAux_prefix c2.data h2 3 _ [],
        splitMaxAux_prefix c3.data h3 2 _ [],
        splitMaxAux_sep_free amt.data 2 [] hamt]
      simp
    have hcols : pySplitMax (c0 ++ "," ++ c1 ++ "," ++ c2 ++ "," ++ c3
        ++ "," ++ amt) ',' 6 = [c0, c1, c2, c3, amt] := by
      unfold pySplitMax
      rw [hparts]
      rfl
    simp only [flipRow, hcols]
    rw [if_neg (by simp)]
    simp only [List.getD_cons_zero, List.getD_cons_succ]
    rw [hp]
    simp only [List.set]
    apply stringDataEq
    simp [joinComma, String.data_append]
  · rw [parseFloat_pyFloatStr { p with neg := !p.neg }
      (parseFloatParts_digits hp).2]
    exact congrArg some (partsVal_negFlip p)
  · intro rows t
    have hpd : processDocument rows (some t)
        = match check_total rows t with
          | .ok _ => ⟨false, none, flip_sign_last_column rows⟩
          | .error e => ⟨false, some e, flip_sign_last_column rows⟩ := rfl
    rw [hpd]
    cases hct : check_total rows t <;> exact ⟨rfl, rfl⟩

/-- Witness for `flip_once_spec` on a well-formed row. -/
theorem flip_once_spec_witness :
    flipRow "0,01/02/24,,Foo,10.00" = "0,01/02/24,,Foo,-10.0"
    ∧ parseFloat "-10.0" = some (-10 : ℚ) := by
  have h := flip_once_spec "0" "01/02/24" "" "Foo" "10.00"
    ⟨false, ['1', '0'], ['0', '0']⟩ (by decide) (by decide) (by decide)
    (by decide) (by decide) (by decide)
  constructor
  · have he : ("0,01/02/24,,Foo,10.00" : String)
        = "0" ++ "," ++ "01/02/24" ++ "," ++ "" ++ "," ++ "Foo" ++ ","
          ++ "10.00" := by decide
    rw [he, h.1]
    decide
  · have h2 := h.2.1
    have he2 : pyFloatStr { (⟨false, ['1', '0'], ['0', '0']⟩ : FloatParts)
        with neg := !false } = "-10.0" := by decide
    rw [he2] at h2
    rw [h2]
    have hval : partsVal ⟨false, ['1', '0'], ['0', '0']⟩ = 10 := by
      show (if false then (-1 : ℚ) else 1) * ((natVal ['1', '0'] : ℚ)
        + (natVal (['0', '0'] : List Char) : ℚ)
          / 10 ^ (['0', '0'] : List Char).length) = 10
      rw [show natVal ['1', '0'] = 10 from by decide,
        show natVal (['0', '0'] : List Char) = 0 from by decide]
      norm_num
    rw [hval]

/-- Counterexample to the original C6: a description containing a comma
misaligns `split(",", 6)`, `float` fails on the shifted fifth field, and
the row is emitted with its purchase amount `10.00` unflipped — the
final stored amount is `parse(a)`, not `-parse(a)`. -/
theorem flip_once_cex :
    parse_block_basic "01/02\nFOO,BAR\n10,00" "24" none 0
      = (["0,01/02/24,,FOO,BAR,10.00"], 1)
    ∧ flip_sign_last_column ["0,01/02/24,,FOO,BAR,10.00"]
      = ["0,01/02/24,,FOO,BAR,10.00"]
    ∧ (["0,01/02/24,,FOO,BAR,10.00"] : List String)
      ≠ ["0,01/02/24,,FOO,BAR,-10.0"] := by
  exact ⟨by decide, by decide, by decide⟩

/-! ## Total extraction (`TOTAL_PATTERNS`, itau.py:14-18;
`find_total_in_text`, itau.py:659-676; `normalize_pdf_text`,
itau.py:679-685).

Each regex is hand-compiled to a deterministic matcher.  The
equivalences used, valid because the neighbouring literals never start
with a whitespace character, digit or dot:

* a literal followed by one-or-more whitespace: maximal whitespace run,
  required nonempty, then the next literal;
* a star of whitespace, a newline, a star of whitespace: maximal
  whitespace run containing at least one newline;
* a star of whitespace, an optional newline, a star of whitespace:
  maximal whitespace run (the optional newline is itself whitespace);
* an optional literal R-dollar: present exactly when the text continues
  with it (skipping it when present leaves an unmatchable R);
* the capture group (digits-and-dots, comma, two digits): maximal
  nonempty run of digits and dots, then a comma and two digits (the run
  cannot end early, since it may only end before a non-digit non-dot);
* the negative lookahead for anterior: fails exactly when the following
  whitespace run is nonempty and is followed by the word anterior;
* `re.search`: try the pattern at each start position, leftmost first.

`re.IGNORECASE` is modelled by case-folding the scanned character; the
only non-ASCII letter in the patterns is the accented e.  `re.MULTILINE`
only affects anchors, which the patterns do not use.  The fallback
labels run on `normalize_pdf_text` output with a lazy gap of at most 200
characters, shortest gap first; `re.DOTALL` lets the gap cross
newlines (the normalized text has none).  The source calls
`parse_brl_amount` on the captured group, which by construction of the
group always parses. -/

/-- Case folding for `re.IGNORECASE` over the alphabet appearing in the
patterns and texts. -/
def reLower (c : Char) : Char := if c = 'É' then 'é' else asciiLower c

/-- Match a literal (given lower-case) case-insensitively, returning the
rest of the text. -/
def matchLitCI : List Char → List Char → Option (List Char)
  | [], cs => some cs
  | _ :: _, [] => none
  | p :: ps, c :: cs => if reLower c = p then matchLitCI ps cs else none

/-- One-or-more whitespace (maximal munch). -/
def matchWsPlus (cs : List Char) : Option (List Char) :=
  if (cs.takeWhile isWs).isEmpty then none else some (cs.dropWhile isWs)

/-- Zero-or-more whitespace. -/
def skipWs (cs : List Char) : List Char := cs.dropWhile isWs

/-- The optional R-dollar literal. -/
def matchOptRS (cs : List Char) : List Char :=
  match matchLitCI ['r', '$'] cs with
  | some rest => rest
  | none => cs

/-- The capture group: digits-and-dots, a comma, two digits. -/
def matchAmountGroup (cs : List Char) : Option (List Char) :=
  let m := cs.takeWhile (fun c => c.isDigit || c = '.')
  match cs.dropWhile (fun c => c.isDigit || c = '.') with
  | ',' :: d1 :: d2 :: _ =>
    if !m.isEmpty && d1.isDigit && d2.isDigit then
      some (m ++ ',' :: [d1, d2])
    else none
  | _ => none

/-- `TOTAL_PATTERNS[0]` at one start position: Total desta fatura, a
whitespace run containing a newline, optional R-dollar, whitespace, the
amount group. -/
def pat1At (cs : List Char) : Option (List Char) :=
  (matchLitCI ("total").data cs).bind fun r1 =>
  (matchWsPlus r1).bind fun r2 =>
  (matchLitCI ("desta").data r2).bind fun r3 =>
  (matchWsPlus r3).bind fun r4 =>
  (matchLitCI ("fatura").data r4).bind fun r5 =>
  if '\n' ∈ r5.takeWhile isWs then
    matchAmountGroup (skipWs (matchOptRS (skipWs r5)))
  else none

/-- `TOTAL_PATTERNS[1]` at one start position: O total da sua fatura
followed by the accented e and a colon, whitespace, a required
R-dollar, whitespace, the amount group. -/
def pat2At (cs : List Char) : Option (List Char) :=
  (matchLitCI ("o").data cs).bind fun r1 =>
  (matchWsPlus r1).bind fun r2 =>
  (matchLitCI ("total").data r2).bind fun r3 =>
  (matchWsPlus r3).bind fun r4 =>
  (matchLitCI ("da").data r4).bind fun r5 =>
  (matchWsPlus r5).bind fun r6 =>
  (matchLitCI ("sua").data r6).bind fun r7 =>
  (matchWsPlus r7).bind fun r8 =>
  (matchLitCI ("fatura").data r8).bind fun r9 =>
  (matchWsPlus r9).bind fun r10 =>
  (matchLitCI ("é:").data r10).bind fun r11 =>
  (matchLitCI ['r', '$'] (skipWs r11)).bind fun r12 =>
  matchAmountGroup (skipWs r12)

/-- `TOTAL_PATTERNS[2]` at one start position: Total da fatura, not
followed by whitespace and anterior, then whitespace, optional
R-dollar, whitespace, the amount group. -/
def pat3At (cs : List Char) : Option (List Char) :=
  (matchLitCI ("total").data cs).bind fun r1 =>
  (matchWsPlus r1).bind fun r2 =>
  (matchLitCI ("da").data r2).bind fun r3 =>
  (matchWsPlus r3).bind fun r4 =>
  (matchLitCI ("fatura").data r4).bind fun r5 =>
  if !(r5.takeWhile isWs).isEmpty
      && (matchLitCI ("anterior").data (skipWs r5)).isSome then none
  else matchAmountGroup (skipWs (matchOptRS (skipWs r5)))

/-- `re.search`: leftmost match of the pattern matcher. -/
def reSearch (patAt : List Char → Option (List Char)) :
    List Char → Option (List Char)
  | [] => patAt []
  | c :: cs =>
    match patAt (c :: cs) with
    | some g => some g
    | none => reSearch patAt cs

/-- `normalize_pdf_text` (itau.py:679-685): strip accents, lower-case,
delete all whitespace. -/
def normalize_pdf_text (text : String) : String :=
  ⟨(text.data.map (fun c => asciiLower (stripAccentChar c))).filter
    (fun c => !isWs c)⟩

/-- The tail of a fallback label pattern: optional r-dollar, then the
amount group. -/
def labelTail (cs : List Char) : Option (List Char) :=
  matchAmountGroup (matchOptRS cs)

/-- The lazy gap of at most `n` characters before the fallback tail,
shortest gap first. -/
def labelGap : Nat → List Char → Option (List Char)
  | 0, cs => labelTail cs
  | n + 1, cs =>
    match labelTail cs with
    | some g => some g
    | none =>
      match cs with
      | [] => none
      | _ :: cs' => labelGap n cs'

/-- A fallback label pattern at one start position. -/
def labelAt (label : List Char) (cs : List Char) : Option (List Char) :=
  (matchLitCI label cs).bind (labelGap 200)

/-- `find_total_in_text` (itau.py:659-676): the three raw-text patterns
in order, then the two normalized-text labels in order. -/
def find_total_in_text (text : String) : Option ℚ :=
  match reSearch pat1At text.data with
  | some g => parse_brl_amount ⟨g⟩
  | none =>
    match reSearch pat2At text.data with
    | some g => parse_brl_amount ⟨g⟩
    | none =>
      match reSearch pat3At text.data with
      | some g => parse_brl_amount ⟨g⟩
      | none =>
        match reSearch (labelAt ("ototaldasuafaturae").data)
            (normalize_pdf_text text).data with
        | some g => parse_brl_amount ⟨g⟩
        | none =>
          match reSearch (labelAt ("totaldestafatura").data)
              (normalize_pdf_text text).data with
          | some g => parse_brl_amount ⟨g⟩
          | none => none

/-- C7: the printed total is extracted by trying the three patterns in
order with the first match winning — Total desta fatura, then O total
da sua fatura, then Total da fatura excluding matches followed by
anterior — and on the claim's example text, which contains both a Total
da fatura anterior followed by 1.234,56 and a Total desta fatura
followed by R-dollar 10.532,52, extraction returns 10532.52, never
1234.56. -/
theorem find_total_patterns_in_order (text : String) :
    (∀ g, reSearch pat1At text.data = some g →
      find_total_in_text text = parse_brl_amount ⟨g⟩)
    ∧ (reSearch pat1At text.data = none →
       ∀ g, reSearch pat2At text.data = some g →
         find_total_in_text text = parse_brl_amount ⟨g⟩)
    ∧ (reSearch pat1At text.data = none →
       reSearch pat2At text.data = none →
       ∀ g, reSearch pat3At text.data = some g →
         find_total_in_text text = parse_brl_amount ⟨g⟩)
    ∧ find_total_in_text
        ("Total da fatura anterior\n1.234,56\nTotal desta fatura\nR$ 10.532,52")
      = some (263313 / 25)
    ∧ ((263313 / 25 : ℚ) = 10532.52 ∧ (263313 / 25 : ℚ) ≠ 1234.56) := by
  refine ⟨?_, ?_, ?_, ?_, by norm_num, by norm_num⟩
  · intro g hg
    show (match reSearch pat1At text.data with
      | some g => parse_brl_amount ⟨g⟩
      | none =>
        match reSearch pat2At text.data with
        | some g => parse_brl_amount ⟨g⟩
        | none =>
          match reSearch pat3At text.data with
          | some g => parse_brl_amount ⟨g⟩
          | none =>
            match reSearch (labelAt ("ototaldasuafaturae").data)
                (normalize_pdf_text text).data with
            | some g => parse_brl_amount ⟨g⟩
            | none =>
              match reSearch (labelAt ("totaldestafatura").data)
                  (normalize_pdf_text text).data with
              | some g => parse_brl_amount ⟨g⟩
              | none => none) = parse_brl_amount ⟨g⟩
    rw [hg]
  · intro h1 g hg
    show (match reSearch pat1At text.data with
      | some g => parse_brl_amount ⟨g⟩
      | none =>
        match reSearch pat2At text.data with
        | some g => parse_brl_amount ⟨g⟩
        | none =>
          match reSearch pat3At text.data with
          | some g => parse_brl_amount ⟨g⟩
          | none =>
            match reSearch (labelAt ("ototaldasuafaturae").data)
                (normalize_pdf_text text).data with
            | some g => parse_brl_amount ⟨g⟩
            | none =>
              match reSearch (labelAt ("totaldestafatura").data)
                  (normalize_pdf_text text).data with
              | some g => parse_brl_amount ⟨g⟩
              | none => none) = parse_brl_amount ⟨g⟩
    rw [h1, hg]
  · intro h1 h2 g hg
    show (match reSearch pat1At text.data with
      | some g => parse_brl_amount ⟨g⟩
      | none =>
        match reSearch pat2At text.data with
        | some g => parse_brl_amount ⟨g⟩
        | none =>
          match reSearch pat3At text.data with
          | some g => parse_brl_amount ⟨g⟩
          | none =>
            match reSearch (labelAt ("ototaldasuafaturae").data)
                (normalize_pdf_text text).data with
            | some g => parse_brl_amount ⟨g⟩
            | none =>
              match reSearch (labelAt ("totaldestafatura").data)
                  (normalize_pdf_text text).data with
              | some g => parse_brl_amount ⟨g⟩
              | none => none) = parse_brl_amount ⟨g⟩
    rw [h1, h2, hg]
  · have hs : reSearch pat1At
        (("Total da fatura anterior\n1.234,56\nTotal desta fatura\nR$ 10.532,52"
          : String)).data
        = some (("10.532,52").data) := by decide
    show (match reSearch pat1At
        (("Total da fatura anterior\n1.234,56\nTotal desta fatura\nR$ 10.532,52"
          : String)).data with
      | some g => parse_brl_amount ⟨g⟩
      | none =>
        match reSearch pat2At
            (("Total da fatura anterior\n1.234,56\nTotal desta fatura\nR$ 10.532,52"
              : String)).data with
        | some g => parse_brl_amount ⟨g⟩
        | none =>
          match reSearch pat3At
              (("Total da fatura anterior\n1.234,56\nTotal desta fatura\nR$ 10.532,52"
                : String)).data with
          | some g => parse_brl_amount ⟨g⟩
          | none =>
            match reSearch (labelAt ("ototaldasuafaturae").data)
                (normalize_pdf_text
                  ("Total da fatura anterior\n1.234,56\nTotal desta fatura\nR$ 10.532,52")).data with
            | some g => parse_brl_amount ⟨g⟩
            | none =>
              match reSearch (labelAt ("totaldestafatura").data)
                  (normalize_pdf_text
                    ("Total da fatura anterior\n1.234,56\nTotal desta fatura\nR$ 10.532,52")).data with
              | some g => parse_brl_amount ⟨g⟩
              | none => none) = some (263313 / 25)
    rw [hs]
    refine (parseFloat_eval _ false ['1', '0', '5', '3', '2'] ['5', '2']
      (by decide)).trans (congrArg some ?_)
    rw [show natVal ['1', '0', '5', '3', '2'] = 10532 from by decide,
      show natVal (['5', '2'] : List Char) = 52 from by decide]
    norm_num

/-- Witness for `find_total_patterns_in_order`: a text the first pattern
misses and the second finds. -/
theorem find_total_patterns_in_order_witness :
    reSearch pat1At (("O total da sua fatura é: R$ 1,00" : String)).data
      = none
    ∧ reSearch pat2At (("O total da sua fatura é: R$ 1,00" : String)).data
      = some (("1,00").data)
    ∧ find_total_in_text "O total da sua fatura é: R$ 1,00"
      = parse_brl_amount "1,00" := by
  refine ⟨by decide, by decide, ?_⟩
  exact (find_total_patterns_in_order
    "O total da sua fatura é: R$ 1,00").2.1 (by decide)
    (("1,00").data) (by decide)

end FinanceApp
